import Mathlib

set_option maxRecDepth 8000

/-!
Verification development for the AGCube 4-polytope engine.

The TypeScript sources are shallowly embedded here:
* `polytopes4d.ts` — catalog of the six regular 4-polytopes (vertex generators,
  deduplication, rescaling, minimum-distance edge discovery);
* `Scene4.tsx` — plane/cube cross-section (`computeSlice`) and arrow-marker
  cross-sections (`computeArrowSlices`), with THREE.js XYZ-Euler rotation;
* the 4D rotation helpers (`rotateXW`/`rotateYW`/`rotateZW`).

JavaScript floating-point numbers are modelled by real numbers; `number[]`
vectors by `List ℝ` (indexing `a[i]` becomes `List.getD a i 0`).  Combinatorial
computations that the claims count (vertex/edge cardinalities) are mirrored on
computable ordered subfields of ℝ (ℚ and quadratic extensions) and transported
along order-preserving ring embeddings, so the counts can be established by
kernel computation.
-/

/-! ## 4D rotation functions (Rotation4D, from the scene source) -/

/-- Simple bivector rotation in the XW coordinate plane, as in the source:
`rotateXW(v, angle)` rotates coordinates 0 and 3, fixing 1 and 2. -/
noncomputable def rotateXW (v : List ℝ) (angle : ℝ) : List ℝ :=
  let c := Real.cos angle
  let s := Real.sin angle
  [v.getD 0 0 * c - v.getD 3 0 * s, v.getD 1 0, v.getD 2 0,
   v.getD 0 0 * s + v.getD 3 0 * c]

/-- Simple bivector rotation in the YW coordinate plane. -/
noncomputable def rotateYW (v : List ℝ) (angle : ℝ) : List ℝ :=
  let c := Real.cos angle
  let s := Real.sin angle
  [v.getD 0 0, v.getD 1 0 * c - v.getD 3 0 * s, v.getD 2 0,
   v.getD 1 0 * s + v.getD 3 0 * c]

/-- Simple bivector rotation in the ZW coordinate plane. -/
noncomputable def rotateZW (v : List ℝ) (angle : ℝ) : List ℝ :=
  let c := Real.cos angle
  let s := Real.sin angle
  [v.getD 0 0, v.getD 1 0, v.getD 2 0 * c - v.getD 3 0 * s,
   v.getD 2 0 * s + v.getD 3 0 * c]

/-- The three rotation planes exposed by the source (`XW`, `YW`, `ZW`). -/
inductive RotPlane where
  | xw : RotPlane
  | yw : RotPlane
  | zw : RotPlane

/-- Dispatch a plane rotation to the corresponding source function. -/
noncomputable def rotateInPlane (v : List ℝ) (p : RotPlane) (angle : ℝ) : List ℝ :=
  match p with
  | RotPlane.xw => rotateXW v angle
  | RotPlane.yw => rotateYW v angle
  | RotPlane.zw => rotateZW v angle

/-- Claim C9: rotating a 4D point by θ in one of the planes XW, YW, ZW and then
by −θ in the same plane returns the point (exactly, hence within tolerance). -/
theorem C9_rotation_reversible (v : List ℝ) (h : v.length = 4)
    (p : RotPlane) (θ : ℝ) :
    rotateInPlane (rotateInPlane v p θ) p (-θ) = v := by
  rcases v with _ | ⟨a, _ | ⟨b, _ | ⟨c, _ | ⟨d, _ | ⟨e, t⟩⟩⟩⟩⟩ <;> simp_all
  have hcs := Real.sin_sq_add_cos_sq θ
  cases p <;>
    simp [rotateInPlane, rotateXW, rotateYW, rotateZW, Real.cos_neg, Real.sin_neg] <;>
    constructor <;>
    first
      | linear_combination a * hcs
      | linear_combination b * hcs
      | linear_combination c * hcs
      | linear_combination d * hcs

/-- Witness for C9 at the concrete point `[1,2,3,4]`, plane XW, angle 1. -/
theorem C9_rotation_reversible_witness :
    rotateInPlane (rotateInPlane [(1:ℝ),2,3,4] RotPlane.xw 1) RotPlane.xw (-1)
      = [(1:ℝ),2,3,4] :=
  C9_rotation_reversible [(1:ℝ),2,3,4] (by simp) RotPlane.xw 1

/-! ## Generic vector and list helpers shared by the catalog and its mirrors

The TypeScript code computes with IEEE doubles; the embedding computes in an
arbitrary linearly ordered commutative ring so that the same definitions can be
read at `ℝ` (the faithful model) and at computable ordered subfields of `ℝ`
(used to count vertices and edges by kernel evaluation).  Tolerance constants
become explicit parameters; the `ℝ` instantiations pass the source literals. -/

variable {α : Type} [LinearOrderedCommRing α]

/-- Index pairs `(i, j)` with `i < j < n`, in the order produced by the
source's nested `for` loops. -/
def pairsLT (n : ℕ) : List (ℕ × ℕ) :=
  (List.range n).flatMap fun i => (List.range' (i + 1) (n - (i + 1))).map fun j => (i, j)

/-- Squared 4D distance (`dist4Sq` in the source). -/
def dist4Sq (a b : List α) : α :=
  (a.getD 0 0 - b.getD 0 0) ^ 2 + (a.getD 1 0 - b.getD 1 0) ^ 2 +
  (a.getD 2 0 - b.getD 2 0) ^ 2 + (a.getD 3 0 - b.getD 3 0) ^ 2

/-- Squared 4D norm (the radicand of `r` in `scaleToRadius`). -/
def sqNorm4 (v : List α) : α :=
  v.getD 0 0 ^ 2 + v.getD 1 0 ^ 2 + v.getD 2 0 ^ 2 + v.getD 3 0 ^ 2

/-- Swap the entries at positions `i` and `j` of an index list. -/
def swapL (l : List ℕ) (i j : ℕ) : List ℕ :=
  (l.set i (l.getD j 0)).set j (l.getD i 0)

/-- Functional reading of the source's in-place backtracking `permute(arr, start)`:
the recursive call receives the swapped array and the swap-back is implicit in
purity.  The first argument is the remaining depth `arr.length - start`. -/
def permAux : ℕ → List ℕ → ℕ → List (List ℕ)
  | 0, arr, _ => [arr]
  | n + 1, arr, start =>
      (List.range' start (n + 1)).flatMap fun i => permAux n (swapL arr start i) (start + 1)

/-- The 24 index permutations enumerated by `allPermutations`. -/
def permIdxAll : List (List ℕ) := permAux 4 [0, 1, 2, 3] 0

/-- `allPermutations(v)` from the source: the leaf pushes
`[v[arr[0]], v[arr[1]], v[arr[2]], v[arr[3]]]`. -/
def allPermutations (v : List α) : List (List α) :=
  permIdxAll.map fun arr =>
    [v.getD (arr.getD 0 0) 0, v.getD (arr.getD 1 0) 0,
     v.getD (arr.getD 2 0) 0, v.getD (arr.getD 3 0) 0]

/-- Parity-tracking variant of `permAux`, mirroring the source's
`permute(arr, start, parity)`; only even-parity leaves are kept. -/
def permAuxP : ℕ → List ℕ → ℕ → ℕ → List (List ℕ)
  | 0, arr, _, parity => if parity % 2 = 0 then [arr] else []
  | n + 1, arr, start, parity =>
      (List.range' start (n + 1)).flatMap fun i =>
        permAuxP n (swapL arr start i) (start + 1) (parity + if i = start then 0 else 1)

/-- The 12 even index permutations enumerated by `evenPermutations`. -/
def permIdxEven : List (List ℕ) := permAuxP 4 [0, 1, 2, 3] 0 0

/-- `evenPermutations(v)` from the source. -/
def evenPermutations (v : List α) : List (List α) :=
  permIdxEven.map fun arr =>
    [v.getD (arr.getD 0 0) 0, v.getD (arr.getD 1 0) 0,
     v.getD (arr.getD 2 0) 0, v.getD (arr.getD 3 0) 0]

/-- `allSignVariations(v)` from the source: one sign mask per `mask < 16`. -/
def allSignVariations (v : List α) : List (List α) :=
  (List.range 16).map fun mask =>
    [if mask &&& 1 ≠ 0 then -(v.getD 0 0) else v.getD 0 0,
     if mask &&& 2 ≠ 0 then -(v.getD 1 0) else v.getD 1 0,
     if mask &&& 4 ≠ 0 then -(v.getD 2 0) else v.getD 2 0,
     if mask &&& 8 ≠ 0 then -(v.getD 3 0) else v.getD 3 0]

/-- `dedup(vertices, tol)` from the source: keep a vertex iff no already kept
vertex is within squared distance `tol`. -/
def dedup (vs : List (List α)) (tol : α) : List (List α) :=
  vs.foldl
    (fun res v => if res.any fun r => decide (dist4Sq v r < tol) then res else res ++ [v])
    []

/-- Deduplication by exact equality; on vertex sets whose distinct members are
farther apart than the tolerance this coincides with `dedup` (proved below). -/
def dedupEq [DecidableEq α] (vs : List (List α)) : List (List α) :=
  vs.foldl
    (fun res v => if res.any fun r => decide (r = v) then res else res ++ [v])
    []

/-- The minimum-distance scan of `findEdges`: `minDist` starts at `Infinity`
(modelled by `none`) and is lowered by every squared distance in
`(tolerance, minDist)`. -/
def findEdgesMin (vs : List (List α)) (tol : α) : Option α :=
  (pairsLT vs.length).foldl
    (fun m ij =>
      let d := dist4Sq (vs.getD ij.1 []) (vs.getD ij.2 [])
      if tol < d then
        match m with
        | none => some d
        | some mv => if d < mv then some d else m
      else m)
    none

/-- `findEdges(vertices, tolerance)` from the source: all pairs whose squared
distance is within relative tolerance of the minimum nonzero squared distance.
When no pair exceeds the tolerance, `minDist` stays `Infinity` and the final
comparison `|d - Infinity| < tolerance * Infinity` is false for every pair, so
no edges are produced. -/
def findEdges (vs : List (List α)) (tol : α) : List (ℕ × ℕ) :=
  match findEdgesMin vs tol with
  | none => []
  | some m =>
      (pairsLT vs.length).filter fun ij =>
        decide (|dist4Sq (vs.getD ij.1 []) (vs.getD ij.2 []) - m| < tol * m)

/-- Neighbor list of `i` in an edge list, in the insertion order used by the
source's adjacency sets (both endpoints inserted while scanning the edges). -/
def neighborsOf (edges : List (ℕ × ℕ)) (i : ℕ) : List ℕ :=
  edges.foldl
    (fun acc e =>
      if e.1 = i then acc ++ [e.2] else if e.2 = i then acc ++ [e.1] else acc)
    []

/-- `findTriangles(vertices, edges)` from the source: all 3-cliques `i < j < k`
of the edge graph. -/
def findTriangles (vs : List (List α)) (edges : List (ℕ × ℕ)) : List (List ℕ) :=
  (List.range vs.length).flatMap fun i =>
    ((neighborsOf edges i).filter fun j => decide (i < j)).flatMap fun j =>
      (((neighborsOf edges j).filter fun k => decide (j < k)).filter fun k =>
          (neighborsOf edges i).contains k).map fun k => [i, j, k]

/-! ## Raw vertex families (shared between ℝ and the computable mirrors) -/

/-- Raw 120-cell vertex family; `s5, phi, …` stand for the source's global
constants `SQRT5`, `PHI`, …, and `c` for the literal `0.01` in the group-2
filter. -/
def raw120L (s5 phi phiInv phiSq phiInvSq c : α) : List (List α) :=
  let g1 := ([-1, 1] : List α).flatMap fun s1 =>
    ([-1, 1] : List α).flatMap fun s2 => allPermutations [0, 0, 2 * s1, 2 * s2]
  let g2 := (allSignVariations [s5, 1, 1, 1]).flatMap fun sv =>
    (allPermutations sv).filter fun p =>
      decide (|(|p.getD 0 0|) - s5| < c) || decide (|(|p.getD 1 0|) - s5| < c) ||
      decide (|(|p.getD 2 0|) - s5| < c) || decide (|(|p.getD 3 0|) - s5| < c)
  let g3 := (allSignVariations [phiInvSq, phi, phi, phi]).flatMap allPermutations
  let g4 := (allSignVariations [phiSq, phiInv, phiInv, phiInv]).flatMap allPermutations
  let g5 := (allSignVariations [phiSq, phiInvSq, 1, 0]).flatMap evenPermutations
  let g6 := (allSignVariations [s5, phiInv, phi, 0]).flatMap evenPermutations
  let g7 := (allSignVariations [2, 1, phi, phiInv]).flatMap evenPermutations
  g1 ++ g2 ++ g3 ++ g4 ++ g5 ++ g6 ++ g7

/-- Raw 600-cell vertex family. -/
def raw600L (phiInv phi : α) : List (List α) :=
  let g1 := ([-1, 1] : List α).flatMap fun s =>
    (List.range 4).map fun dd => ([0, 0, 0, 0] : List α).set dd (2 * s)
  let g2 := allSignVariations ([1, 1, 1, 1] : List α)
  let g3 := (allSignVariations [0, phiInv, 1, phi]).flatMap evenPermutations
  g1 ++ g2 ++ g3

/-- Raw 24-cell vertex family: all `(±1, ±1, 0, 0)` coordinate placements. -/
def raw24L : List (List α) :=
  (pairsLT 4).flatMap fun d12 =>
    ([-1, 1] : List α).flatMap fun s1 =>
      ([-1, 1] : List α).map fun s2 =>
        (([0, 0, 0, 0] : List α).set d12.1 s1).set d12.2 s2

/-- Tesseract vertices: all of `{-1, 1}^4` in the source's loop order. -/
def tesseractVertsL : List (List α) :=
  ([-1, 1] : List α).flatMap fun x =>
    ([-1, 1] : List α).flatMap fun y =>
      ([-1, 1] : List α).flatMap fun z =>
        ([-1, 1] : List α).map fun w => [x, y, z, w]

/-- Number of coordinates in which two tesseract vertices differ. -/
def diffCount [DecidableEq α] (a b : List α) : ℕ :=
  ((List.range 4).filter fun k => decide (¬ a.getD k 0 = b.getD k 0)).length

/-- Tesseract edges: vertex pairs differing in exactly one coordinate. -/
def tesseractEdgesL [DecidableEq α] (vs : List (List α)) : List (ℕ × ℕ) :=
  (pairsLT 16).filter fun ij => decide (diffCount (vs.getD ij.1 []) (vs.getD ij.2 []) = 1)

/-- 16-cell vertices (the 8 signed unit axis vectors). -/
def sixteenVertsL : List (List α) :=
  [[1, 0, 0, 0], [-1, 0, 0, 0], [0, 1, 0, 0], [0, -1, 0, 0],
   [0, 0, 1, 0], [0, 0, -1, 0], [0, 0, 0, 1], [0, 0, 0, -1]]

/-! ## The catalog at ℝ (faithful model of `polytopes4d.ts`) -/

/-- Golden ratio `PHI = (1 + Math.sqrt(5)) / 2`. -/
noncomputable def PHI : ℝ := (1 + Real.sqrt 5) / 2

/-- `PHI_INV = 1 / PHI`. -/
noncomputable def PHI_INV : ℝ := 1 / PHI

/-- `PHI_SQ = PHI * PHI`. -/
noncomputable def PHI_SQ : ℝ := PHI * PHI

/-- `PHI_INV_SQ = PHI_INV * PHI_INV`. -/
noncomputable def PHI_INV_SQ : ℝ := PHI_INV * PHI_INV

/-- `SQRT5 = Math.sqrt(5)`. -/
noncomputable def SQRT5 : ℝ := Real.sqrt 5

/-- `scaleToRadius(vertices, target)` from the source: rescale uniformly so the
maximum vertex norm becomes `target`. -/
noncomputable def scaleToRadius (vs : List (List ℝ)) (target : ℝ) : List (List ℝ) :=
  let maxR := vs.foldl (fun m v => let r := Real.sqrt (sqNorm4 v); if m < r then r else m) 0
  let s := target / maxR
  vs.map fun v => [v.getD 0 0 * s, v.getD 1 0 * s, v.getD 2 0 * s, v.getD 3 0 * s]

/-- The maximum-norm fold of `scaleToRadius`, exposed separately because the
circumradius claim is about this quantity. -/
noncomputable def maxVertexNorm (vs : List (List ℝ)) : ℝ :=
  vs.foldl (fun m v => let r := Real.sqrt (sqNorm4 v); if m < r then r else m) 0

/-- The `Polytope4D` record of the source (vertices, edges, faces, face size). -/
structure Polytope4D where
  name : String
  description : String
  vertices : List (List ℝ)
  edges : List (ℕ × ℕ)
  faces : List (List ℕ)
  faceSize : ℕ

/-- `makeFiveCell()`: explicit regular 4-simplex, complete edge graph, all
3-subsets as faces. -/
noncomputable def makeFiveCell : Polytope4D :=
  let s : ℝ := 1 / Real.sqrt 5
  let vertices := scaleToRadius
    [[1, 1, 1, -s], [1, -1, -1, -s], [-1, 1, -1, -s], [-1, -1, 1, -s], [0, 0, 0, 4 * s]] 1.5
  let edges := pairsLT 5
  let faces := (List.range 5).flatMap fun i =>
    (List.range' (i + 1) (5 - (i + 1))).flatMap fun j =>
      (List.range' (j + 1) (5 - (j + 1))).map fun k => [i, j, k]
  { name := "5-cell", description := "Pentachoron (hyper-tetrahedron)",
    vertices := vertices, edges := edges, faces := faces, faceSize := 3 }

/-- Index of the tesseract vertex with the given coordinates (`findIdx` in the
source; `none` models the `-1` result that the source guards against). -/
noncomputable def findIdxT (vs : List (List ℝ)) (x y z w : ℝ) : Option ℕ :=
  vs.findIdx? fun v =>
    decide (v.getD 0 0 = x ∧ v.getD 1 0 = y ∧ v.getD 2 0 = z ∧ v.getD 3 0 = w)

/-- Square faces of the tesseract: fix two dimensions, vary the other two; the
3rd and 4th generated corners are swapped to avoid a bowtie winding. -/
noncomputable def tesseractFacesL (vs : List (List ℝ)) : List (List ℕ) :=
  (pairsLT 4).flatMap fun d12 =>
    let fixedDims := ([0, 1, 2, 3] : List ℕ).filter fun dd =>
      decide (dd ≠ d12.1 ∧ dd ≠ d12.2)
    ([-1, 1] : List ℝ).flatMap fun v1 =>
      ([-1, 1] : List ℝ).flatMap fun v2 =>
        let coords := ([-1, 1] : List ℝ).flatMap fun a =>
          ([-1, 1] : List ℝ).map fun b =>
            ((((([0, 0, 0, 0] : List ℝ).set d12.1 a).set d12.2 b).set
                (fixedDims.getD 0 0) v1).set (fixedDims.getD 1 0) v2)
        let c0 := coords.getD 0 []
        let c1 := coords.getD 1 []
        let c2 := coords.getD 2 []
        let c3 := coords.getD 3 []
        match findIdxT vs (c0.getD 0 0) (c0.getD 1 0) (c0.getD 2 0) (c0.getD 3 0),
              findIdxT vs (c1.getD 0 0) (c1.getD 1 0) (c1.getD 2 0) (c1.getD 3 0),
              findIdxT vs (c3.getD 0 0) (c3.getD 1 0) (c3.getD 2 0) (c3.getD 3 0),
              findIdxT vs (c2.getD 0 0) (c2.getD 1 0) (c2.getD 2 0) (c2.getD 3 0) with
        | some i0, some i1, some i2, some i3 => [[i0, i1, i2, i3]]
        | _, _, _, _ => []

/-- `makeTesseract()`: all of `{-1,1}^4`, edges between vertices differing in
one coordinate.  Note: the source never rescales these vertices. -/
noncomputable def makeTesseract : Polytope4D :=
  let vertices : List (List ℝ) := tesseractVertsL
  { name := "8-cell", description := "Tesseract (hyper-cube)",
    vertices := vertices, edges := tesseractEdgesL vertices,
    faces := tesseractFacesL vertices, faceSize := 4 }

/-- `makeSixteenCell()`. -/
noncomputable def makeSixteenCell : Polytope4D :=
  let vertices := scaleToRadius sixteenVertsL 1.5
  let edges := findEdges vertices 1e-6
  { name := "16-cell", description := "Hexadecachoron (hyper-octahedron)",
    vertices := vertices, edges := edges,
    faces := findTriangles vertices edges, faceSize := 3 }

/-- `makeTwentyFourCell()`. -/
noncomputable def makeTwentyFourCell : Polytope4D :=
  let vertices := scaleToRadius raw24L 1.5
  let edges := findEdges vertices 1e-6
  { name := "24-cell", description := "Icositetrachoron (self-dual)",
    vertices := vertices, edges := edges,
    faces := findTriangles vertices edges, faceSize := 3 }

/-- `makeOneHundredTwentyCell()`: seven coordinate families, deduplicated and
rescaled; face computation is skipped in the source. -/
noncomputable def makeOneHundredTwentyCell : Polytope4D :=
  let raw := raw120L SQRT5 PHI PHI_INV PHI_SQ PHI_INV_SQ 0.01
  let vertices := scaleToRadius (dedup raw 1e-8) 1.5
  let edges := findEdges vertices 1e-6
  { name := "120-cell", description := "Hecatonicosachoron (hyper-dodecahedron)",
    vertices := vertices, edges := edges, faces := [], faceSize := 5 }

/-- `makeSixHundredCell()`. -/
noncomputable def makeSixHundredCell : Polytope4D :=
  let raw := raw600L PHI_INV PHI
  let vertices := scaleToRadius (dedup raw 1e-8) 1.5
  let edges := findEdges vertices 1e-6
  { name := "600-cell", description := "Hexacosichoron (hyper-icosahedron)",
    vertices := vertices, edges := edges,
    faces := findTriangles vertices edges, faceSize := 3 }

/-- The exported catalog `POLYTOPES_4D`. -/
noncomputable def POLYTOPES_4D : List Polytope4D :=
  [makeFiveCell, makeTesseract, makeSixteenCell, makeTwentyFourCell,
   makeOneHundredTwentyCell, makeSixHundredCell]


/-! ## Computable quadratic integer rings used as mirrors

`Zq m n` is ℤ[ω] for a quadratic integer ω with ω² = m + n·ω; `⟨a, b⟩` stands
for `a + b·ω`.  With `(m, n) = (2, 0)` this is ℤ[√2]; with `(m, n) = (1, 1)` it
is ℤ[φ] (φ the golden ratio), which contains `φ, φ⁻¹ = φ - 1, φ², φ⁻²` and
`√5 = 2φ - 1`.  All comparisons reduce in the kernel, which is what lets the
vertex/edge counts be decided by computation. -/

structure Zq (m n : ℤ) where
  a : ℤ
  b : ℤ
deriving DecidableEq

theorem Zq.ext_iff2 {m n : ℤ} {x y : Zq m n} : x = y ↔ x.a = y.a ∧ x.b = y.b := by
  cases x; cases y; simp

instance {m n : ℤ} : Zero (Zq m n) := ⟨⟨0, 0⟩⟩

instance {m n : ℤ} : One (Zq m n) := ⟨⟨1, 0⟩⟩

instance {m n : ℤ} : Add (Zq m n) := ⟨fun x y => ⟨x.a + y.a, x.b + y.b⟩⟩

instance {m n : ℤ} : Neg (Zq m n) := ⟨fun x => ⟨-x.a, -x.b⟩⟩

instance {m n : ℤ} : Mul (Zq m n) :=
  ⟨fun x y => ⟨x.a * y.a + m * (x.b * y.b), x.a * y.b + x.b * y.a + n * (x.b * y.b)⟩⟩

instance {m n : ℤ} : Sub (Zq m n) := ⟨fun x y => ⟨x.a - y.a, x.b - y.b⟩⟩

theorem Zq.zero_def {m n : ℤ} : (0 : Zq m n) = ⟨0, 0⟩ := rfl

theorem Zq.one_def {m n : ℤ} : (1 : Zq m n) = ⟨1, 0⟩ := rfl

theorem Zq.add_def {m n : ℤ} (x y : Zq m n) : x + y = ⟨x.a + y.a, x.b + y.b⟩ := rfl

theorem Zq.neg_def {m n : ℤ} (x : Zq m n) : -x = ⟨-x.a, -x.b⟩ := rfl

theorem Zq.sub_def {m n : ℤ} (x y : Zq m n) : x - y = ⟨x.a - y.a, x.b - y.b⟩ := rfl

theorem Zq.mul_def {m n : ℤ} (x y : Zq m n) :
    x * y = ⟨x.a * y.a + m * (x.b * y.b), x.a * y.b + x.b * y.a + n * (x.b * y.b)⟩ := rfl

/-- `Zq m n` is a commutative ring (componentwise check). -/
instance Zq.instCommRing {m n : ℤ} : CommRing (Zq m n) where
  nsmul := nsmulRec
  zsmul := zsmulRec
  add_assoc x y z := by simp only [Zq.add_def, Zq.ext_iff2]; constructor <;> ring
  zero_add x := by simp [Zq.add_def, Zq.zero_def, Zq.ext_iff2]
  add_zero x := by simp [Zq.add_def, Zq.zero_def, Zq.ext_iff2]
  add_comm x y := by simp only [Zq.add_def, Zq.ext_iff2]; constructor <;> ring
  left_distrib x y z := by
    simp only [Zq.mul_def, Zq.add_def, Zq.ext_iff2]; constructor <;> ring
  right_distrib x y z := by
    simp only [Zq.mul_def, Zq.add_def, Zq.ext_iff2]; constructor <;> ring
  zero_mul x := by simp [Zq.mul_def, Zq.zero_def, Zq.ext_iff2]
  mul_zero x := by simp [Zq.mul_def, Zq.zero_def, Zq.ext_iff2]
  mul_assoc x y z := by simp only [Zq.mul_def, Zq.ext_iff2]; constructor <;> ring
  one_mul x := by simp [Zq.mul_def, Zq.one_def, Zq.ext_iff2]
  mul_one x := by simp [Zq.mul_def, Zq.one_def, Zq.ext_iff2]
  mul_comm x y := by simp only [Zq.mul_def, Zq.ext_iff2]; constructor <;> ring
  neg_add_cancel x := by simp [Zq.add_def, Zq.neg_def, Zq.zero_def, Zq.ext_iff2]
  sub_eq_add_neg x y := by
    simp only [Zq.sub_def, Zq.add_def, Zq.neg_def, Zq.ext_iff2]; constructor <;> ring

/-- Evaluation of `⟨a, b⟩` at a real root `ω` of `X² = m + n·X`. -/
noncomputable def Zq.toR {m n : ℤ} (ω : ℝ) (x : Zq m n) : ℝ := x.a + x.b * ω

theorem Zq.toR_zero {m n : ℤ} (ω : ℝ) : (0 : Zq m n).toR ω = 0 := by
  simp [Zq.toR, Zq.zero_def]

theorem Zq.toR_one {m n : ℤ} (ω : ℝ) : (1 : Zq m n).toR ω = 1 := by
  simp [Zq.toR, Zq.one_def]

theorem Zq.toR_add {m n : ℤ} (ω : ℝ) (x y : Zq m n) :
    (x + y).toR ω = x.toR ω + y.toR ω := by
  simp only [Zq.toR, Zq.add_def]; push_cast; ring

theorem Zq.toR_neg {m n : ℤ} (ω : ℝ) (x : Zq m n) : (-x).toR ω = -x.toR ω := by
  simp only [Zq.toR, Zq.neg_def]; push_cast; ring

theorem Zq.toR_sub {m n : ℤ} (ω : ℝ) (x y : Zq m n) :
    (x - y).toR ω = x.toR ω - y.toR ω := by
  simp only [Zq.toR, Zq.sub_def]; push_cast; ring

theorem Zq.toR_mul {m n : ℤ} {ω : ℝ} (hω : ω ^ 2 = m + n * ω) (x y : Zq m n) :
    (x * y).toR ω = x.toR ω * y.toR ω := by
  simp only [Zq.toR, Zq.mul_def]
  push_cast
  linear_combination (-(x.b : ℝ) * y.b) * hω

/-- Sign test for `p + q·√D` over the integers (`D ≥ 0`). -/
def Zq.nonnegInt (D p q : ℤ) : Bool :=
  if 0 ≤ p then
    (if 0 ≤ q then true else decide (D * q ^ 2 ≤ p ^ 2))
  else
    (if 0 ≤ q then decide (p ^ 2 ≤ D * q ^ 2) else false)

theorem Zq.nonnegInt_iff (D p q : ℤ) (hD : 0 ≤ D) :
    Zq.nonnegInt D p q = true ↔ 0 ≤ (p : ℝ) + q * Real.sqrt D := by
  have hS : (0:ℝ) ≤ Real.sqrt D := Real.sqrt_nonneg _
  have hS2 : Real.sqrt D ^ 2 = (D:ℝ) := Real.sq_sqrt (by exact_mod_cast hD)
  simp only [Zq.nonnegInt]
  by_cases h1 : (0:ℤ) ≤ p
  · by_cases h2 : (0:ℤ) ≤ q
    · rw [if_pos h1, if_pos h2]
      simp only [true_iff]
      have ha : (0:ℝ) ≤ (p:ℝ) := by exact_mod_cast h1
      have hb : (0:ℝ) ≤ (q:ℝ) := by exact_mod_cast h2
      positivity
    · rw [if_pos h1, if_neg h2, decide_eq_true_eq]
      push_neg at h2
      have ha : (0:ℝ) ≤ (p:ℝ) := by exact_mod_cast h1
      have hb : ((q:ℝ)) < 0 := by exact_mod_cast h2
      constructor
      · intro hq
        have h' : (D:ℝ) * (q:ℝ) ^ 2 ≤ (p:ℝ) ^ 2 := by exact_mod_cast hq
        by_contra hc
        push_neg at hc
        have hlt : (p:ℝ) < (-(q:ℝ)) * Real.sqrt D := by nlinarith
        have hsq : (p:ℝ) ^ 2 < ((-(q:ℝ)) * Real.sqrt D) ^ 2 :=
          pow_lt_pow_left₀ hlt ha (by norm_num)
        nlinarith [hsq, hS2]
      · intro h
        have hle : (-(q:ℝ)) * Real.sqrt D ≤ (p:ℝ) := by nlinarith
        have hsq : ((-(q:ℝ)) * Real.sqrt D) ^ 2 ≤ (p:ℝ) ^ 2 :=
          pow_le_pow_left₀ (by nlinarith) hle 2
        have h' : (D:ℝ) * (q:ℝ) ^ 2 ≤ (p:ℝ) ^ 2 := by nlinarith [hsq, hS2]
        exact_mod_cast h'
  · rw [if_neg h1]
    push_neg at h1
    have ha : ((p:ℝ)) < 0 := by exact_mod_cast h1
    by_cases h2 : (0:ℤ) ≤ q
    · rw [if_pos h2, decide_eq_true_eq]
      have hb : (0:ℝ) ≤ (q:ℝ) := by exact_mod_cast h2
      constructor
      · intro hq
        have h' : (p:ℝ) ^ 2 ≤ (D:ℝ) * (q:ℝ) ^ 2 := by exact_mod_cast hq
        by_contra hc
        push_neg at hc
        have hlt : (q:ℝ) * Real.sqrt D < -(p:ℝ) := by nlinarith
        have hsq : ((q:ℝ) * Real.sqrt D) ^ 2 < (-(p:ℝ)) ^ 2 :=
          pow_lt_pow_left₀ hlt (by positivity) (by norm_num)
        nlinarith [hsq, hS2]
      · intro h
        have hle : -(p:ℝ) ≤ (q:ℝ) * Real.sqrt D := by nlinarith
        have hsq : (-(p:ℝ)) ^ 2 ≤ ((q:ℝ) * Real.sqrt D) ^ 2 :=
          pow_le_pow_left₀ (by nlinarith) hle 2
        have h' : (p:ℝ) ^ 2 ≤ (D:ℝ) * (q:ℝ) ^ 2 := by nlinarith [hsq, hS2]
        exact_mod_cast h'
    · rw [if_neg h2]
      push_neg at h2
      have hb : ((q:ℝ)) < 0 := by exact_mod_cast h2
      simp only [Bool.false_eq_true, false_iff, not_le]
      nlinarith [hS]

/-- Nonnegativity test for `a + b·ω`, via `2·(a + b·ω) = (2a + n·b) + b·√(n² + 4m)`. -/
def Zq.nonnegb {m n : ℤ} (x : Zq m n) : Bool :=
  Zq.nonnegInt (n ^ 2 + 4 * m) (2 * x.a + n * x.b) x.b

instance {m n : ℤ} : LE (Zq m n) := ⟨fun x y => (y - x).nonnegb = true⟩

instance {m n : ℤ} : LT (Zq m n) := ⟨fun x y => x ≤ y ∧ ¬ y ≤ x⟩

theorem Zq.le_def {m n : ℤ} (x y : Zq m n) : x ≤ y ↔ (y - x).nonnegb = true := Iff.rfl

theorem Zq.nonnegb_iff {m n : ℤ} {ω : ℝ} (hω : ω ^ 2 = m + n * ω)
    (h2ω : (n : ℝ) ≤ 2 * ω) (x : Zq m n) :
    x.nonnegb = true ↔ 0 ≤ x.toR ω := by
  have hDsq : ((n ^ 2 + 4 * m : ℤ) : ℝ) = (2 * ω - n) ^ 2 := by
    push_cast
    linear_combination (-4 : ℝ) * hω
  have hD : (0:ℤ) ≤ n ^ 2 + 4 * m := by
    have : (0:ℝ) ≤ ((n ^ 2 + 4 * m : ℤ) : ℝ) := by rw [hDsq]; positivity
    exact_mod_cast this
  have hsqrt : Real.sqrt ((n ^ 2 + 4 * m : ℤ) : ℝ) = 2 * ω - n := by
    rw [hDsq]
    exact Real.sqrt_sq (by linarith)
  rw [Zq.nonnegb, Zq.nonnegInt_iff _ _ _ hD]
  rw [hsqrt]
  constructor
  · intro h
    push_cast at h
    unfold Zq.toR
    linarith
  · intro h
    unfold Zq.toR at h
    push_cast
    linarith

theorem Zq.toR_le {m n : ℤ} {ω : ℝ} (hω : ω ^ 2 = m + n * ω)
    (h2ω : (n : ℝ) ≤ 2 * ω) {x y : Zq m n} :
    x ≤ y ↔ x.toR ω ≤ y.toR ω := by
  rw [Zq.le_def, Zq.nonnegb_iff hω h2ω, Zq.toR_sub, sub_nonneg]

/-- If `ω` is irrational, evaluation at `ω` is injective. -/
theorem Zq.toR_inj {m n : ℤ} {ω : ℝ} (hirr : Irrational ω) {x y : Zq m n}
    (h : x.toR ω = y.toR ω) : x = y := by
  obtain ⟨a, b⟩ := x
  obtain ⟨c, e⟩ := y
  simp only [Zq.toR] at h
  by_cases hbe : b = e
  · subst hbe
    have : (a : ℝ) = c := by linarith [h]
    have : a = c := by exact_mod_cast this
    simp [this]
  · exfalso
    have hbe' : ((b : ℝ)) - e ≠ 0 := by
      intro hc
      exact hbe (by exact_mod_cast sub_eq_zero.mp hc)
    have : ω = (((c - a : ℤ) : ℚ) / ((b - e : ℤ) : ℚ) : ℚ) := by
      push_cast
      field_simp
      nlinarith [h]
    exact hirr ⟨((c - a : ℤ) : ℚ) / ((b - e : ℤ) : ℚ), this.symm⟩

/-- A real root datum for `Zq m n`: a root of `X² = m + n·X` that is at least
`n/2` and irrational.  Packaged as a proposition so instances built from it
remain computable. -/
def Zq.HasRoot (m n : ℤ) : Prop :=
  ∃ ω : ℝ, ω ^ 2 = m + n * ω ∧ (n : ℝ) ≤ 2 * ω ∧ Irrational ω

/-- Linear order on `Zq m n` with kernel-computable comparisons. -/
def Zq.linOrder (m n : ℤ) (hr : Zq.HasRoot m n) : LinearOrder (Zq m n) where
  le := (· ≤ ·)
  lt := (· < ·)
  le_refl := fun x => by
    obtain ⟨ω, hω, h2ω, hirr⟩ := hr
    exact (Zq.toR_le hω h2ω).mpr le_rfl
  le_trans := fun x y z h1 h2 => by
    obtain ⟨ω, hω, h2ω, hirr⟩ := hr
    exact (Zq.toR_le hω h2ω).mpr
      (le_trans ((Zq.toR_le hω h2ω).mp h1) ((Zq.toR_le hω h2ω).mp h2))
  le_antisymm := fun x y h1 h2 => by
    obtain ⟨ω, hω, h2ω, hirr⟩ := hr
    exact Zq.toR_inj hirr
      (le_antisymm ((Zq.toR_le hω h2ω).mp h1) ((Zq.toR_le hω h2ω).mp h2))
  le_total := fun x y => by
    obtain ⟨ω, hω, h2ω, hirr⟩ := hr
    rcases le_total (x.toR ω) (y.toR ω) with h | h
    · exact Or.inl ((Zq.toR_le hω h2ω).mpr h)
    · exact Or.inr ((Zq.toR_le hω h2ω).mpr h)
  lt_iff_le_not_le := fun x y => Iff.rfl
  decidableLE := fun x y => inferInstanceAs (Decidable ((y - x).nonnegb = true))
  decidableEq := inferInstance

theorem Zq.toR_lt_aux {m n : ℤ} {ω : ℝ} (hω : ω ^ 2 = m + n * ω)
    (h2ω : (n : ℝ) ≤ 2 * ω) {x y : Zq m n} :
    (x ≤ y ∧ ¬ y ≤ x) ↔ x.toR ω < y.toR ω := by
  rw [Zq.toR_le hω h2ω, Zq.toR_le hω h2ω]
  constructor
  · rintro ⟨h1, h2⟩
    exact lt_of_le_not_le h1 h2
  · intro h
    exact ⟨h.le, fun hc => absurd (le_antisymm h.le hc) (ne_of_lt h)⟩

/-- Ordered ring structure on `Zq m n`, given a suitable irrational root. -/
def Zq.linOrdCommRing (m n : ℤ) (hr : Zq.HasRoot m n) :
    LinearOrderedCommRing (Zq m n) :=
  { Zq.instCommRing, Zq.linOrder m n hr with
    add_le_add_left := fun x y h z => by
      obtain ⟨ω, hω, h2ω, hirr⟩ := hr
      have h' := (Zq.toR_le hω h2ω).mp h
      exact (Zq.toR_le hω h2ω).mpr (by rw [Zq.toR_add, Zq.toR_add]; linarith)
    zero_le_one := by
      obtain ⟨ω, hω, h2ω, hirr⟩ := hr
      exact (Zq.toR_le hω h2ω).mpr (by rw [Zq.toR_zero, Zq.toR_one]; norm_num)
    mul_pos := fun x y hx hy => by
      obtain ⟨ω, hω, h2ω, hirr⟩ := hr
      have hx' := (Zq.toR_lt_aux hω h2ω).mp hx
      have hy' := (Zq.toR_lt_aux hω h2ω).mp hy
      rw [Zq.toR_zero] at hx' hy'
      exact (Zq.toR_lt_aux hω h2ω).mpr
        (by rw [Zq.toR_zero, Zq.toR_mul hω]; exact mul_pos hx' hy')
    exists_pair_ne := ⟨0, 1, fun hc => by
      have : ((0 : Zq m n)).a = ((1 : Zq m n)).a := by rw [hc]
      simp [Zq.zero_def, Zq.one_def] at this⟩ }

/-- The golden ratio root used for `Zq 1 1`. -/
noncomputable def phiR : ℝ := (1 + Real.sqrt 5) / 2

theorem phiR_sq : phiR ^ 2 = (1 : ℤ) + (1 : ℤ) * phiR := by
  have h5 : Real.sqrt 5 ^ 2 = (5:ℝ) := Real.sq_sqrt (by norm_num)
  unfold phiR
  push_cast
  linear_combination (1/4 : ℝ) * h5

theorem phiR_nonneg_bound : ((1 : ℤ) : ℝ) ≤ 2 * phiR := by
  have h5 : (0:ℝ) ≤ Real.sqrt 5 := Real.sqrt_nonneg _
  unfold phiR
  push_cast
  linarith

theorem phiR_irrational : Irrational phiR := by
  have h5 : Irrational (Real.sqrt 5) := (by norm_num : Nat.Prime 5).irrational_sqrt
  have h1 : Irrational (1 + Real.sqrt 5) := by simpa using h5.rat_add 1
  have := h1.rat_mul (q := 1/2) (by norm_num)
  unfold phiR
  convert this using 1
  push_cast
  ring

theorem sqrt2_sq : Real.sqrt 2 ^ 2 = (2 : ℤ) + (0 : ℤ) * Real.sqrt 2 := by
  have h2 : Real.sqrt 2 ^ 2 = (2:ℝ) := Real.sq_sqrt (by norm_num)
  push_cast
  linarith

theorem sqrt2_nonneg_bound : ((0 : ℤ) : ℝ) ≤ 2 * Real.sqrt 2 := by
  have h2 : (0:ℝ) ≤ Real.sqrt 2 := Real.sqrt_nonneg _
  push_cast
  linarith

theorem Zq.hasRoot_phi : Zq.HasRoot 1 1 :=
  ⟨phiR, phiR_sq, phiR_nonneg_bound, phiR_irrational⟩

theorem Zq.hasRoot_sqrt2 : Zq.HasRoot 2 0 :=
  ⟨Real.sqrt 2, sqrt2_sq, sqrt2_nonneg_bound, Nat.prime_two.irrational_sqrt⟩

instance : LinearOrderedCommRing (Zq 1 1) := Zq.linOrdCommRing 1 1 Zq.hasRoot_phi

instance : LinearOrderedCommRing (Zq 2 0) := Zq.linOrdCommRing 2 0 Zq.hasRoot_sqrt2

/-! ## Chunked evaluation lemmas

Kernel evaluation of long list recursions overflows; folds over `flatMap`s are
rewritten into nested folds with short spines before `decide` is invoked. -/

theorem foldl_flatMap {α' β γ : Type} (g : β → List γ) (f : α' → γ → α')
    (l : List β) (a : α') :
    (l.flatMap g).foldl f a = l.foldl (fun acc x => (g x).foldl f acc) a := by
  induction l generalizing a with
  | nil => simp
  | cons x t ih => simp [List.flatMap_cons, List.foldl_append, ih]

theorem countP_flatMap {β γ : Type} (g : β → List γ) (p : γ → Bool) (l : List β) :
    (l.flatMap g).countP p = (l.map fun x => (g x).countP p).sum := by
  induction l with
  | nil => simp
  | cons x t ih => simp [List.flatMap_cons, List.countP_append, ih]

/-! ## Mirror instantiations for the vertex counts -/

/-- The unfiltered 120-cell raw family: the source's group-2 filter keeps every
permutation (each one has a `±√5` coordinate), so the raw family equals this
filterless variant; that is proved below and lets the mirror avoid the
filter's `0.01` literal, which has no integer counterpart. -/
def raw120NF (s5 phi phiInv phiSq phiInvSq : α) : List (List α) :=
  let g1 := ([-1, 1] : List α).flatMap fun s1 =>
    ([-1, 1] : List α).flatMap fun s2 => allPermutations [0, 0, 2 * s1, 2 * s2]
  let g2 := (allSignVariations [s5, 1, 1, 1]).flatMap allPermutations
  let g3 := (allSignVariations [phiInvSq, phi, phi, phi]).flatMap allPermutations
  let g4 := (allSignVariations [phiSq, phiInv, phiInv, phiInv]).flatMap allPermutations
  let g5 := (allSignVariations [phiSq, phiInvSq, 1, 0]).flatMap evenPermutations
  let g6 := (allSignVariations [s5, phiInv, phi, 0]).flatMap evenPermutations
  let g7 := (allSignVariations [2, 1, phi, phiInv]).flatMap evenPermutations
  g1 ++ g2 ++ g3 ++ g4 ++ g5 ++ g6 ++ g7

/-- Golden-ratio integers: `√5 = 2φ - 1`. -/
def s5M : Zq 1 1 := ⟨-1, 2⟩

/-- `φ` in `ℤ[φ]`. -/
def phiM : Zq 1 1 := ⟨0, 1⟩

/-- `φ⁻¹ = φ - 1`. -/
def phiInvM : Zq 1 1 := ⟨-1, 1⟩

/-- `φ² = 1 + φ`. -/
def phiSqM : Zq 1 1 := ⟨1, 1⟩

/-- `φ⁻² = 2 - φ`. -/
def phiInvSqM : Zq 1 1 := ⟨2, -1⟩

/-- Mirror of the (unfiltered) 120-cell raw vertex family in `ℤ[φ]`. -/
def raw120M : List (List (Zq 1 1)) := raw120NF s5M phiM phiInvM phiSqM phiInvSqM

/-- Mirror of the 600-cell raw vertex family in `ℤ[φ]`. -/
def raw600M : List (List (Zq 1 1)) := raw600L phiInvM phiM

/-! ## Properties of equality deduplication -/

/-- One step of `dedupEq` (keep a vertex iff not already present). -/
def dedupEqStep {γ : Type} [DecidableEq γ] (res : List γ) (v : γ) : List γ :=
  if res.any fun r => decide (r = v) then res else res ++ [v]

theorem dedupEq_eq_foldl {β' : Type} [DecidableEq β'] (vs : List (List β')) :
    dedupEq vs = vs.foldl dedupEqStep [] := rfl

theorem foldl_dedupEqStep_offset {γ : Type} [DecidableEq γ] (B : List γ) :
    ∀ (pre res : List γ), (∀ b ∈ B, ∀ a ∈ pre, ¬ b = a) →
      B.foldl dedupEqStep (pre ++ res) = pre ++ B.foldl dedupEqStep res := by
  induction B with
  | nil => intro pre res h; simp
  | cons v t ih =>
      intro pre res h
      have hpre : ∀ a ∈ pre, ¬ v = a := fun a ha => h v (by simp) a ha
      have hstep : dedupEqStep (pre ++ res) v = pre ++ dedupEqStep res v := by
        unfold dedupEqStep
        rw [List.any_append]
        have : (pre.any fun r => decide (r = v)) = false := by
          rw [List.any_eq_false]
          intro a ha
          simpa using fun hc => hpre a ha hc.symm
        rw [this, Bool.false_or]
        by_cases hc : (res.any fun r => decide (r = v)) = true
        · rw [hc]; simp
        · rw [Bool.eq_false_iff.mpr hc]; simp
      rw [List.foldl_cons, List.foldl_cons, hstep]
      exact ih pre (dedupEqStep res v) fun b hb a ha => h b (by simp [hb]) a ha

theorem mem_of_foldl_dedupEqStep {γ : Type} [DecidableEq γ] (l : List γ) :
    ∀ (res : List γ) (x : γ), x ∈ l.foldl dedupEqStep res → x ∈ res ∨ x ∈ l := by
  induction l with
  | nil => intro res x hx; exact Or.inl hx
  | cons v t ih =>
      intro res x hx
      rcases ih (dedupEqStep res v) x hx with hr | hl
      · unfold dedupEqStep at hr
        split at hr
        · exact Or.inl hr
        · rcases List.mem_append.mp hr with h1 | h1
          · exact Or.inl h1
          · exact Or.inr (by simp [List.mem_singleton.mp h1])
      · exact Or.inr (List.mem_cons_of_mem v hl)

/-- Deduplication distributes over an append when the second part shares no
element with the first. -/
theorem dedupEq_append_disjoint {β' : Type} [DecidableEq β'] (A B : List (List β'))
    (h : ∀ b ∈ B, ∀ a ∈ A, ¬ b = a) :
    dedupEq (A ++ B) = dedupEq A ++ dedupEq B := by
  show (A ++ B).foldl dedupEqStep [] = A.foldl dedupEqStep [] ++ B.foldl dedupEqStep []
  rw [List.foldl_append]
  have hsub : ∀ x ∈ A.foldl dedupEqStep [], x ∈ A := by
    intro x hx
    rcases mem_of_foldl_dedupEqStep A [] x hx with h0 | h1
    · simp at h0
    · exact h1
  have := foldl_dedupEqStep_offset B (A.foldl dedupEqStep []) []
    (fun b hb a ha => h b hb a (hsub a ha))
  simpa using this

/-! ## 120-cell vertex count via per-group deduplication

The seven coordinate families are pairwise disjoint: a cheap numeric invariant
`sepZ` (a function of the multiset of absolute coefficient pairs) is constant
on each family with seven different values.  Deduplication therefore splits
into per-family deduplication. -/

/-- Shorthand constructor for golden-ratio integers. -/
def qq (a b : ℤ) : Zq 1 1 := ⟨a, b⟩

/-- Group 1 of the raw 120-cell family, mirrored in ℤ[φ]. -/
def g1M : List (List (Zq 1 1)) := ([-1, 1] : List (Zq 1 1)).flatMap fun s1 =>
  ([-1, 1] : List (Zq 1 1)).flatMap fun s2 => allPermutations [0, 0, 2 * s1, 2 * s2]

/-- Group 2 (unfiltered), mirrored in ℤ[φ]. -/
def g2M : List (List (Zq 1 1)) := (allSignVariations [s5M, 1, 1, 1]).flatMap allPermutations

/-- Group 3, mirrored in ℤ[φ]. -/
def g3M : List (List (Zq 1 1)) :=
  (allSignVariations [phiInvSqM, phiM, phiM, phiM]).flatMap allPermutations

/-- Group 4, mirrored in ℤ[φ]. -/
def g4M : List (List (Zq 1 1)) :=
  (allSignVariations [phiSqM, phiInvM, phiInvM, phiInvM]).flatMap allPermutations

/-- Group 5, mirrored in ℤ[φ]. -/
def g5M : List (List (Zq 1 1)) :=
  (allSignVariations [phiSqM, phiInvSqM, 1, 0]).flatMap evenPermutations

/-- Group 6, mirrored in ℤ[φ]. -/
def g6M : List (List (Zq 1 1)) :=
  (allSignVariations [s5M, phiInvM, phiM, 0]).flatMap evenPermutations

/-- Group 7, mirrored in ℤ[φ]. -/
def g7M : List (List (Zq 1 1)) :=
  (allSignVariations [2, 1, phiM, phiInvM]).flatMap evenPermutations

theorem raw120M_groups : raw120M = g1M ++ g2M ++ g3M ++ g4M ++ g5M ++ g6M ++ g7M := rfl

/-- Separating invariant: depends only on the multiset of `(|a|, |b|)`
coefficient pairs of a vertex, and takes a different constant value on each of
the seven raw families. -/
def sepZ (v : List (Zq 1 1)) : ℕ :=
  (v.map fun x =>
    let p := x.a.natAbs
    let q := x.b.natAbs
    p ^ 2 + 100 * q ^ 2 + 10000 * (p ^ 2 * q ^ 2) + 1000000 * p ^ 4 + 100000000 * q ^ 4).sum

theorem sep_g1 : (g1M.all fun v => decide (sepZ v = 32000008)) = true := by decide!

theorem sep_g2 : (g2M.all fun v => decide (sepZ v = 1604040404)) = true := by decide!

theorem sep_g3 : (g3M.all fun v => decide (sepZ v = 416040404)) = true := by decide!

theorem sep_g4 : (g4M.all fun v => decide (sepZ v = 404040404)) = true := by decide!

theorem sep_g5 : (g5M.all fun v => decide (sepZ v = 218050206)) = true := by decide!

theorem sep_g6 : (g6M.all fun v => decide (sepZ v = 1802050602)) = true := by decide!

theorem sep_g7 : (g7M.all fun v => decide (sepZ v = 218010206)) = true := by decide!

theorem sep_const_of_all {c : ℕ} {l : List (List (Zq 1 1))}
    (h : (l.all fun v => decide (sepZ v = c)) = true) : ∀ v ∈ l, sepZ v = c :=
  fun v hv => of_decide_eq_true (List.all_eq_true.mp h v hv)

theorem sep_disjoint {l1 l2 : List (List (Zq 1 1))} {c1 c2 : ℕ}
    (h1 : ∀ v ∈ l1, sepZ v = c1) (h2 : ∀ v ∈ l2, sepZ v = c2) (hne : c2 ≠ c1) :
    ∀ b ∈ l2, ∀ a ∈ l1, ¬ b = a :=
  fun b hb a ha heq => hne (by rw [← h1 a ha, ← h2 b hb, heq])

/-- Intermediate dedup state after the first half of group 2. -/
def mid2M : List (List (Zq 1 1)) :=
  [[qq (-1) (2), qq (1) (0), qq (1) (0), qq (1) (0)],
   [qq (1) (0), qq (-1) (2), qq (1) (0), qq (1) (0)],
   [qq (1) (0), qq (1) (0), qq (-1) (2), qq (1) (0)],
   [qq (1) (0), qq (1) (0), qq (1) (0), qq (-1) (2)],
   [qq (1) (-2), qq (1) (0), qq (1) (0), qq (1) (0)],
   [qq (1) (0), qq (1) (-2), qq (1) (0), qq (1) (0)],
   [qq (1) (0), qq (1) (0), qq (1) (-2), qq (1) (0)],
   [qq (1) (0), qq (1) (0), qq (1) (0), qq (1) (-2)],
   [qq (-1) (2), qq (-1) (0), qq (1) (0), qq (1) (0)],
   [qq (-1) (2), qq (1) (0), qq (-1) (0), qq (1) (0)],
   [qq (-1) (2), qq (1) (0), qq (1) (0), qq (-1) (0)],
   [qq (-1) (0), qq (-1) (2), qq (1) (0), qq (1) (0)],
   [qq (-1) (0), qq (1) (0), qq (-1) (2), qq (1) (0)],
   [qq (-1) (0), qq (1) (0), qq (1) (0), qq (-1) (2)],
   [qq (1) (0), qq (-1) (0), qq (-1) (2), qq (1) (0)],
   [qq (1) (0), qq (-1) (0), qq (1) (0), qq (-1) (2)],
   [qq (1) (0), qq (-1) (2), qq (-1) (0), qq (1) (0)],
   [qq (1) (0), qq (-1) (2), qq (1) (0), qq (-1) (0)],
   [qq (1) (0), qq (1) (0), qq (-1) (2), qq (-1) (0)],
   [qq (1) (0), qq (1) (0), qq (-1) (0), qq (-1) (2)],
   [qq (1) (-2), qq (-1) (0), qq (1) (0), qq (1) (0)],
   [qq (1) (-2), qq (1) (0), qq (-1) (0), qq (1) (0)],
   [qq (1) (-2), qq (1) (0), qq (1) (0), qq (-1) (0)],
   [qq (-1) (0), qq (1) (-2), qq (1) (0), qq (1) (0)],
   [qq (-1) (0), qq (1) (0), qq (1) (-2), qq (1) (0)],
   [qq (-1) (0), qq (1) (0), qq (1) (0), qq (1) (-2)],
   [qq (1) (0), qq (-1) (0), qq (1) (-2), qq (1) (0)],
   [qq (1) (0), qq (-1) (0), qq (1) (0), qq (1) (-2)],
   [qq (1) (0), qq (1) (-2), qq (-1) (0), qq (1) (0)],
   [qq (1) (0), qq (1) (-2), qq (1) (0), qq (-1) (0)],
   [qq (1) (0), qq (1) (0), qq (1) (-2), qq (-1) (0)],
   [qq (1) (0), qq (1) (0), qq (-1) (0), qq (1) (-2)],
   [qq (-1) (2), qq (-1) (0), qq (-1) (0), qq (1) (0)],
   [qq (-1) (2), qq (-1) (0), qq (1) (0), qq (-1) (0)],
   [qq (-1) (2), qq (1) (0), qq (-1) (0), qq (-1) (0)],
   [qq (-1) (0), qq (-1) (2), qq (-1) (0), qq (1) (0)],
   [qq (-1) (0), qq (-1) (2), qq (1) (0), qq (-1) (0)],
   [qq (-1) (0), qq (-1) (0), qq (-1) (2), qq (1) (0)],
   [qq (-1) (0), qq (-1) (0), qq (1) (0), qq (-1) (2)],
   [qq (-1) (0), qq (1) (0), qq (-1) (0), qq (-1) (2)],
   [qq (-1) (0), qq (1) (0), qq (-1) (2), qq (-1) (0)],
   [qq (1) (0), qq (-1) (0), qq (-1) (0), qq (-1) (2)],
   [qq (1) (0), qq (-1) (0), qq (-1) (2), qq (-1) (0)],
   [qq (1) (0), qq (-1) (2), qq (-1) (0), qq (-1) (0)],
   [qq (1) (-2), qq (-1) (0), qq (-1) (0), qq (1) (0)],
   [qq (1) (-2), qq (-1) (0), qq (1) (0), qq (-1) (0)],
   [qq (1) (-2), qq (1) (0), qq (-1) (0), qq (-1) (0)],
   [qq (-1) (0), qq (1) (-2), qq (-1) (0), qq (1) (0)],
   [qq (-1) (0), qq (1) (-2), qq (1) (0), qq (-1) (0)],
   [qq (-1) (0), qq (-1) (0), qq (1) (-2), qq (1) (0)],
   [qq (-1) (0), qq (-1) (0), qq (1) (0), qq (1) (-2)],
   [qq (-1) (0), qq (1) (0), qq (-1) (0), qq (1) (-2)],
   [qq (-1) (0), qq (1) (0), qq (1) (-2), qq (-1) (0)],
   [qq (1) (0), qq (-1) (0), qq (-1) (0), qq (1) (-2)],
   [qq (1) (0), qq (-1) (0), qq (1) (-2), qq (-1) (0)],
   [qq (1) (0), qq (1) (-2), qq (-1) (0), qq (-1) (0)]]

theorem dedup_g2_half : List.foldl dedupEqStep [] (g2M.take 192) = mid2M := by decide!

theorem dedup_g2_len : (dedupEq g2M).length = 64 := by
  rw [dedupEq_eq_foldl,
      show g2M = g2M.take 192 ++ g2M.drop 192 from (List.take_append_drop 192 g2M).symm,
      List.foldl_append, dedup_g2_half]
  decide!

/-- Intermediate dedup state after the first half of group 3. -/
def mid3M : List (List (Zq 1 1)) :=
  [[qq (2) (-1), qq (0) (1), qq (0) (1), qq (0) (1)],
   [qq (0) (1), qq (2) (-1), qq (0) (1), qq (0) (1)],
   [qq (0) (1), qq (0) (1), qq (2) (-1), qq (0) (1)],
   [qq (0) (1), qq (0) (1), qq (0) (1), qq (2) (-1)],
   [qq (-2) (1), qq (0) (1), qq (0) (1), qq (0) (1)],
   [qq (0) (1), qq (-2) (1), qq (0) (1), qq (0) (1)],
   [qq (0) (1), qq (0) (1), qq (-2) (1), qq (0) (1)],
   [qq (0) (1), qq (0) (1), qq (0) (1), qq (-2) (1)],
   [qq (2) (-1), qq (0) (-1), qq (0) (1), qq (0) (1)],
   [qq (2) (-1), qq (0) (1), qq (0) (-1), qq (0) (1)],
   [qq (2) (-1), qq (0) (1), qq (0) (1), qq (0) (-1)],
   [qq (0) (-1), qq (2) (-1), qq (0) (1), qq (0) (1)],
   [qq (0) (-1), qq (0) (1), qq (2) (-1), qq (0) (1)],
   [qq (0) (-1), qq (0) (1), qq (0) (1), qq (2) (-1)],
   [qq (0) (1), qq (0) (-1), qq (2) (-1), qq (0) (1)],
   [qq (0) (1), qq (0) (-1), qq (0) (1), qq (2) (-1)],
   [qq (0) (1), qq (2) (-1), qq (0) (-1), qq (0) (1)],
   [qq (0) (1), qq (2) (-1), qq (0) (1), qq (0) (-1)],
   [qq (0) (1), qq (0) (1), qq (2) (-1), qq (0) (-1)],
   [qq (0) (1), qq (0) (1), qq (0) (-1), qq (2) (-1)],
   [qq (-2) (1), qq (0) (-1), qq (0) (1), qq (0) (1)],
   [qq (-2) (1), qq (0) (1), qq (0) (-1), qq (0) (1)],
   [qq (-2) (1), qq (0) (1), qq (0) (1), qq (0) (-1)],
   [qq (0) (-1), qq (-2) (1), qq (0) (1), qq (0) (1)],
   [qq (0) (-1), qq (0) (1), qq (-2) (1), qq (0) (1)],
   [qq (0) (-1), qq (0) (1), qq (0) (1), qq (-2) (1)],
   [qq (0) (1), qq (0) (-1), qq (-2) (1), qq (0) (1)],
   [qq (0) (1), qq (0) (-1), qq (0) (1), qq (-2) (1)],
   [qq (0) (1), qq (-2) (1), qq (0) (-1), qq (0) (1)],
   [qq (0) (1), qq (-2) (1), qq (0) (1), qq (0) (-1)],
   [qq (0) (1), qq (0) (1), qq (-2) (1), qq (0) (-1)],
   [qq (0) (1), qq (0) (1), qq (0) (-1), qq (-2) (1)],
   [qq (2) (-1), qq (0) (-1), qq (0) (-1), qq (0) (1)],
   [qq (2) (-1), qq (0) (-1), qq (0) (1), qq (0) (-1)],
   [qq (2) (-1), qq (0) (1), qq (0) (-1), qq (0) (-1)],
   [qq (0) (-1), qq (2) (-1), qq (0) (-1), qq (0) (1)],
   [qq (0) (-1), qq (2) (-1), qq (0) (1), qq (0) (-1)],
   [qq (0) (-1), qq (0) (-1), qq (2) (-1), qq (0) (1)],
   [qq (0) (-1), qq (0) (-1), qq (0) (1), qq (2) (-1)],
   [qq (0) (-1), qq (0) (1), qq (0) (-1), qq (2) (-1)],
   [qq (0) (-1), qq (0) (1), qq (2) (-1), qq (0) (-1)],
   [qq (0) (1), qq (0) (-1), qq (0) (-1), qq (2) (-1)],
   [qq (0) (1), qq (0) (-1), qq (2) (-1), qq (0) (-1)],
   [qq (0) (1), qq (2) (-1), qq (0) (-1), qq (0) (-1)],
   [qq (-2) (1), qq (0) (-1), qq (0) (-1), qq (0) (1)],
   [qq (-2) (1), qq (0) (-1), qq (0) (1), qq (0) (-1)],
   [qq (-2) (1), qq (0) (1), qq (0) (-1), qq (0) (-1)],
   [qq (0) (-1), qq (-2) (1), qq (0) (-1), qq (0) (1)],
   [qq (0) (-1), qq (-2) (1), qq (0) (1), qq (0) (-1)],
   [qq (0) (-1), qq (0) (-1), qq (-2) (1), qq (0) (1)],
   [qq (0) (-1), qq (0) (-1), qq (0) (1), qq (-2) (1)],
   [qq (0) (-1), qq (0) (1), qq (0) (-1), qq (-2) (1)],
   [qq (0) (-1), qq (0) (1), qq (-2) (1), qq (0) (-1)],
   [qq (0) (1), qq (0) (-1), qq (0) (-1), qq (-2) (1)],
   [qq (0) (1), qq (0) (-1), qq (-2) (1), qq (0) (-1)],
   [qq (0) (1), qq (-2) (1), qq (0) (-1), qq (0) (-1)]]

theorem dedup_g3_half : List.foldl dedupEqStep [] (g3M.take 192) = mid3M := by decide!

theorem dedup_g3_len : (dedupEq g3M).length = 64 := by
  rw [dedupEq_eq_foldl,
      show g3M = g3M.take 192 ++ g3M.drop 192 from (List.take_append_drop 192 g3M).symm,
      List.foldl_append, dedup_g3_half]
  decide!

/-- Intermediate dedup state after the first half of group 4. -/
def mid4M : List (List (Zq 1 1)) :=
  [[qq (1) (1), qq (-1) (1), qq (-1) (1), qq (-1) (1)],
   [qq (-1) (1), qq (1) (1), qq (-1) (1), qq (-1) (1)],
   [qq (-1) (1), qq (-1) (1), qq (1) (1), qq (-1) (1)],
   [qq (-1) (1), qq (-1) (1), qq (-1) (1), qq (1) (1)],
   [qq (-1) (-1), qq (-1) (1), qq (-1) (1), qq (-1) (1)],
   [qq (-1) (1), qq (-1) (-1), qq (-1) (1), qq (-1) (1)],
   [qq (-1) (1), qq (-1) (1), qq (-1) (-1), qq (-1) (1)],
   [qq (-1) (1), qq (-1) (1), qq (-1) (1), qq (-1) (-1)],
   [qq (1) (1), qq (1) (-1), qq (-1) (1), qq (-1) (1)],
   [qq (1) (1), qq (-1) (1), qq (1) (-1), qq (-1) (1)],
   [qq (1) (1), qq (-1) (1), qq (-1) (1), qq (1) (-1)],
   [qq (1) (-1), qq (1) (1), qq (-1) (1), qq (-1) (1)],
   [qq (1) (-1), qq (-1) (1), qq (1) (1), qq (-1) (1)],
   [qq (1) (-1), qq (-1) (1), qq (-1) (1), qq (1) (1)],
   [qq (-1) (1), qq (1) (-1), qq (1) (1), qq (-1) (1)],
   [qq (-1) (1), qq (1) (-1), qq (-1) (1), qq (1) (1)],
   [qq (-1) (1), qq (1) (1), qq (1) (-1), qq (-1) (1)],
   [qq (-1) (1), qq (1) (1), qq (-1) (1), qq (1) (-1)],
   [qq (-1) (1), qq (-1) (1), qq (1) (1), qq (1) (-1)],
   [qq (-1) (1), qq (-1) (1), qq (1) (-1), qq (1) (1)],
   [qq (-1) (-1), qq (1) (-1), qq (-1) (1), qq (-1) (1)],
   [qq (-1) (-1), qq (-1) (1), qq (1) (-1), qq (-1) (1)],
   [qq (-1) (-1), qq (-1) (1), qq (-1) (1), qq (1) (-1)],
   [qq (1) (-1), qq (-1) (-1), qq (-1) (1), qq (-1) (1)],
   [qq (1) (-1), qq (-1) (1), qq (-1) (-1), qq (-1) (1)],
   [qq (1) (-1), qq (-1) (1), qq (-1) (1), qq (-1) (-1)],
   [qq (-1) (1), qq (1) (-1), qq (-1) (-1), qq (-1) (1)],
   [qq (-1) (1), qq (1) (-1), qq (-1) (1), qq (-1) (-1)],
   [qq (-1) (1), qq (-1) (-1), qq (1) (-1), qq (-1) (1)],
   [qq (-1) (1), qq (-1) (-1), qq (-1) (1), qq (1) (-1)],
   [qq (-1) (1), qq (-1) (1), qq (-1) (-1), qq (1) (-1)],
   [qq (-1) (1), qq (-1) (1), qq (1) (-1), qq (-1) (-1)],
   [qq (1) (1), qq (1) (-1), qq (1) (-1), qq (-1) (1)],
   [qq (1) (1), qq (1) (-1), qq (-1) (1), qq (1) (-1)],
   [qq (1) (1), qq (-1) (1), qq (1) (-1), qq (1) (-1)],
   [qq (1) (-1), qq (1) (1), qq (1) (-1), qq (-1) (1)],
   [qq (1) (-1), qq (1) (1), qq (-1) (1), qq (1) (-1)],
   [qq (1) (-1), qq (1) (-1), qq (1) (1), qq (-1) (1)],
   [qq (1) (-1), qq (1) (-1), qq (-1) (1), qq (1) (1)],
   [qq (1) (-1), qq (-1) (1), qq (1) (-1), qq (1) (1)],
   [qq (1) (-1), qq (-1) (1), qq (1) (1), qq (1) (-1)],
   [qq (-1) (1), qq (1) (-1), qq (1) (-1), qq (1) (1)],
   [qq (-1) (1), qq (1) (-1), qq (1) (1), qq (1) (-1)],
   [qq (-1) (1), qq (1) (1), qq (1) (-1), qq (1) (-1)],
   [qq (-1) (-1), qq (1) (-1), qq (1) (-1), qq (-1) (1)],
   [qq (-1) (-1), qq (1) (-1), qq (-1) (1), qq (1) (-1)],
   [qq (-1) (-1), qq (-1) (1), qq (1) (-1), qq (1) (-1)],
   [qq (1) (-1), qq (-1) (-1), qq (1) (-1), qq (-1) (1)],
   [qq (1) (-1), qq (-1) (-1), qq (-1) (1), qq (1) (-1)],
   [qq (1) (-1), qq (1) (-1), qq (-1) (-1), qq (-1) (1)],
   [qq (1) (-1), qq (1) (-1), qq (-1) (1), qq (-1) (-1)],
   [qq (1) (-1), qq (-1) (1), qq (1) (-1), qq (-1) (-1)],
   [qq (1) (-1), qq (-1) (1), qq (-1) (-1), qq (1) (-1)],
   [qq (-1) (1), qq (1) (-1), qq (1) (-1), qq (-1) (-1)],
   [qq (-1) (1), qq (1) (-1), qq (-1) (-1), qq (1) (-1)],
   [qq (-1) (1), qq (-1) (-1), qq (1) (-1), qq (1) (-1)]]

theorem dedup_g4_half : List.foldl dedupEqStep [] (g4M.take 192) = mid4M := by decide!

theorem dedup_g4_len : (dedupEq g4M).length = 64 := by
  rw [dedupEq_eq_foldl,
      show g4M = g4M.take 192 ++ g4M.drop 192 from (List.take_append_drop 192 g4M).symm,
      List.foldl_append, dedup_g4_half]
  decide!

theorem dedup_g1_len : (dedupEq g1M).length = 24 := by
  rw [dedupEq_eq_foldl]
  decide!

theorem dedup_g5_len : (dedupEq g5M).length = 96 := by
  rw [dedupEq_eq_foldl]
  decide!

theorem dedup_g6_len : (dedupEq g6M).length = 96 := by
  rw [dedupEq_eq_foldl]
  decide!

theorem dedup_g7_len : (dedupEq g7M).length = 192 := by
  rw [dedupEq_eq_foldl]
  decide!

theorem dedupEq_raw120M_split :
    dedupEq raw120M = dedupEq g1M ++ dedupEq g2M ++ dedupEq g3M ++ dedupEq g4M ++
      dedupEq g5M ++ dedupEq g6M ++ dedupEq g7M := by
  have s1 := sep_const_of_all sep_g1
  have s2 := sep_const_of_all sep_g2
  have s3 := sep_const_of_all sep_g3
  have s4 := sep_const_of_all sep_g4
  have s5 := sep_const_of_all sep_g5
  have s6 := sep_const_of_all sep_g6
  have s7 := sep_const_of_all sep_g7
  rw [raw120M_groups]
  rw [dedupEq_append_disjoint _ g7M (fun b hb a ha => by
    simp only [List.mem_append] at ha
    rcases ha with ((((h | h) | h) | h) | h) | h
    · exact sep_disjoint s1 s7 (by norm_num) b hb a h
    · exact sep_disjoint s2 s7 (by norm_num) b hb a h
    · exact sep_disjoint s3 s7 (by norm_num) b hb a h
    · exact sep_disjoint s4 s7 (by norm_num) b hb a h
    · exact sep_disjoint s5 s7 (by norm_num) b hb a h
    · exact sep_disjoint s6 s7 (by norm_num) b hb a h)]
  rw [dedupEq_append_disjoint _ g6M (fun b hb a ha => by
    simp only [List.mem_append] at ha
    rcases ha with (((h | h) | h) | h) | h
    · exact sep_disjoint s1 s6 (by norm_num) b hb a h
    · exact sep_disjoint s2 s6 (by norm_num) b hb a h
    · exact sep_disjoint s3 s6 (by norm_num) b hb a h
    · exact sep_disjoint s4 s6 (by norm_num) b hb a h
    · exact sep_disjoint s5 s6 (by norm_num) b hb a h)]
  rw [dedupEq_append_disjoint _ g5M (fun b hb a ha => by
    simp only [List.mem_append] at ha
    rcases ha with ((h | h) | h) | h
    · exact sep_disjoint s1 s5 (by norm_num) b hb a h
    · exact sep_disjoint s2 s5 (by norm_num) b hb a h
    · exact sep_disjoint s3 s5 (by norm_num) b hb a h
    · exact sep_disjoint s4 s5 (by norm_num) b hb a h)]
  rw [dedupEq_append_disjoint _ g4M (fun b hb a ha => by
    simp only [List.mem_append] at ha
    rcases ha with (h | h) | h
    · exact sep_disjoint s1 s4 (by norm_num) b hb a h
    · exact sep_disjoint s2 s4 (by norm_num) b hb a h
    · exact sep_disjoint s3 s4 (by norm_num) b hb a h)]
  rw [dedupEq_append_disjoint _ g3M (fun b hb a ha => by
    simp only [List.mem_append] at ha
    rcases ha with h | h
    · exact sep_disjoint s1 s3 (by norm_num) b hb a h
    · exact sep_disjoint s2 s3 (by norm_num) b hb a h)]
  rw [dedupEq_append_disjoint _ g2M (sep_disjoint s1 s2 (by norm_num))]

theorem dedupEq_raw120M_length : (dedupEq raw120M).length = 600 := by
  rw [dedupEq_raw120M_split]
  simp only [List.length_append, dedup_g1_len, dedup_g2_len, dedup_g3_len, dedup_g4_len,
    dedup_g5_len, dedup_g6_len, dedup_g7_len]

/-! ## 600-cell vertex count -/

theorem dedupEq_raw600M_length : (dedupEq raw600M).length = 120 := by
  rw [dedupEq_eq_foldl]
  decide!

/-! ## Tolerance deduplication coincides with equality deduplication
when distinct vertices are separated by more than the tolerance -/

theorem dedup_eq_foldl (vs : List (List α)) (tol : α) :
    dedup vs tol = vs.foldl
      (fun res v => if res.any fun r => decide (dist4Sq v r < tol) then res else res ++ [v])
      [] := rfl

theorem any_congrL {β : Type} (l : List β) (p q : β → Bool)
    (h : ∀ x ∈ l, p x = q x) : l.any p = l.any q := by
  induction l with
  | nil => rfl
  | cons x t ih =>
      simp only [List.any_cons]
      rw [h x (List.mem_cons_self x t), ih (fun y hy => h y (List.mem_cons_of_mem x hy))]

theorem dedup_eq_dedupEq [DecidableEq α] (vs : List (List α)) (tol : α)
    (hgap : ∀ v ∈ vs, ∀ w ∈ vs, (dist4Sq v w < tol ↔ v = w)) :
    dedup vs tol = dedupEq vs := by
  rw [dedup_eq_foldl, dedupEq_eq_foldl]
  have main : ∀ (l res : List (List α)), (∀ x ∈ l, x ∈ vs) → (∀ x ∈ res, x ∈ vs) →
      l.foldl (fun res v =>
          if res.any fun r => decide (dist4Sq v r < tol) then res else res ++ [v]) res
        = l.foldl dedupEqStep res := by
    intro l
    induction l with
    | nil => intro res hl hres; rfl
    | cons v t ih =>
        intro res hl hres
        have hcond : (res.any fun r => decide (dist4Sq v r < tol))
            = (res.any fun r => decide (r = v)) := by
          apply any_congrL
          intro r hr
          have hiff := hgap v (hl v (List.mem_cons_self v t)) r (hres r hr)
          simp only [decide_eq_decide]
          rw [hiff]
          exact ⟨fun hh => hh.symm, fun hh => hh.symm⟩
        rw [List.foldl_cons, List.foldl_cons, hcond]
        show _ = List.foldl dedupEqStep (dedupEqStep res v) t
        unfold dedupEqStep
        apply ih
        · intro x hx; exact hl x (List.mem_cons_of_mem v hx)
        · intro x hx
          split at hx
          · exact hres x hx
          · rcases List.mem_append.mp hx with h1 | h1
            · exact hres x h1
            · rw [List.mem_singleton.mp h1]
              exact hl v (List.mem_cons_self v t)
  apply main
  · intro x hx; exact hx
  · intro x hx; exact absurd hx (List.not_mem_nil x)

/-! ## Transport machinery: commuting the generators with ring maps -/

section MapCommute

variable {γ δ : Type} [LinearOrderedCommRing γ] [LinearOrderedCommRing δ]

theorem getD_map_zero (f : γ →+* δ) (v : List γ) (i : ℕ) :
    (v.map f).getD i 0 = f (v.getD i 0) := by
  simp only [List.getD_eq_getElem?_getD, List.getElem?_map]
  cases v[i]? with
  | none => simp
  | some x => simp

theorem allPermutations_map (f : γ →+* δ) (v : List γ) :
    allPermutations (v.map f) = (allPermutations v).map (List.map f) := by
  unfold allPermutations
  rw [List.map_map]
  apply List.map_congr_left
  intro arr _
  simp only [Function.comp, List.map_cons, List.map_nil, getD_map_zero]

theorem evenPermutations_map (f : γ →+* δ) (v : List γ) :
    evenPermutations (v.map f) = (evenPermutations v).map (List.map f) := by
  unfold evenPermutations
  rw [List.map_map]
  apply List.map_congr_left
  intro arr _
  simp only [Function.comp, List.map_cons, List.map_nil, getD_map_zero]

theorem allSignVariations_map (f : γ →+* δ) (v : List γ) :
    allSignVariations (v.map f) = (allSignVariations v).map (List.map f) := by
  unfold allSignVariations
  rw [List.map_map]
  apply List.map_congr_left
  intro mask _
  simp only [Function.comp, List.map_cons, List.map_nil, getD_map_zero]
  refine congrArg₂ _ ?_ (congrArg₂ _ ?_ (congrArg₂ _ ?_ (congrArg₂ _ ?_ rfl))) <;>
    split <;> simp [getD_map_zero]

theorem lit_pm1_map (f : γ →+* δ) : ([-1, 1] : List γ).map f = [-1, 1] := by
  simp

theorem flatMap_congr_fun {β₁ β₂ : Type} (l : List β₁) (g h : β₁ → List β₂)
    (he : ∀ x, g x = h x) : l.flatMap g = l.flatMap h := by
  rw [funext he]

theorem app_congr {β₁ : Type} {a b c d : List β₁} (h1 : a = b) (h2 : c = d) :
    a ++ c = b ++ d := by rw [h1, h2]

theorem asv_ap_map (f : γ →+* δ) (v : List γ) :
    (allSignVariations (v.map f)).flatMap allPermutations
      = ((allSignVariations v).flatMap allPermutations).map (List.map f) := by
  rw [allSignVariations_map, List.flatMap_map, List.map_flatMap]
  exact flatMap_congr_fun _ _ _ fun sv => allPermutations_map f sv

theorem asv_ep_map (f : γ →+* δ) (v : List γ) :
    (allSignVariations (v.map f)).flatMap evenPermutations
      = ((allSignVariations v).flatMap evenPermutations).map (List.map f) := by
  rw [allSignVariations_map, List.flatMap_map, List.map_flatMap]
  exact flatMap_congr_fun _ _ _ fun sv => evenPermutations_map f sv

theorem raw120NF_map (f : γ →+* δ) (s5 phi phiInv phiSq phiInvSq : γ) :
    raw120NF (f s5) (f phi) (f phiInv) (f phiSq) (f phiInvSq)
      = (raw120NF s5 phi phiInv phiSq phiInvSq).map (List.map f) := by
  unfold raw120NF
  simp only [List.map_append]
  refine app_congr (app_congr (app_congr (app_congr (app_congr (app_congr ?_ ?_) ?_) ?_) ?_)
    ?_) ?_
  · rw [show ([-1, 1] : List δ) = ([-1, 1] : List γ).map f from (lit_pm1_map f).symm]
    simp only [List.flatMap_map, List.map_flatMap]
    refine flatMap_congr_fun _ _ _ fun s1 => ?_
    try simp only [Function.comp]
    refine flatMap_congr_fun _ _ _ fun s2 => ?_
    try simp only [Function.comp]
    rw [show ([0, 0, 2 * f s1, 2 * f s2] : List δ)
        = ([0, 0, 2 * s1, 2 * s2] : List γ).map f by simp [map_ofNat], allPermutations_map]
  · rw [show ([f s5, 1, 1, 1] : List δ) = ([s5, 1, 1, 1] : List γ).map f by simp]
    exact asv_ap_map f _
  · rw [show ([f phiInvSq, f phi, f phi, f phi] : List δ)
        = ([phiInvSq, phi, phi, phi] : List γ).map f by simp]
    exact asv_ap_map f _
  · rw [show ([f phiSq, f phiInv, f phiInv, f phiInv] : List δ)
        = ([phiSq, phiInv, phiInv, phiInv] : List γ).map f by simp]
    exact asv_ap_map f _
  · rw [show ([f phiSq, f phiInvSq, 1, 0] : List δ)
        = ([phiSq, phiInvSq, 1, 0] : List γ).map f by simp]
    exact asv_ep_map f _
  · rw [show ([f s5, f phiInv, f phi, 0] : List δ)
        = ([s5, phiInv, phi, 0] : List γ).map f by simp]
    exact asv_ep_map f _
  · rw [show ([2, 1, f phi, f phiInv] : List δ)
        = ([2, 1, phi, phiInv] : List γ).map f by simp [map_ofNat]]
    exact asv_ep_map f _

theorem raw600L_map (f : γ →+* δ) (phiInv phi : γ) :
    raw600L (f phiInv) (f phi) = (raw600L phiInv phi).map (List.map f) := by
  unfold raw600L
  simp only [List.map_append]
  refine app_congr (app_congr ?_ ?_) ?_
  · rw [show ([-1, 1] : List δ) = ([-1, 1] : List γ).map f from (lit_pm1_map f).symm]
    simp only [List.flatMap_map, List.map_flatMap]
    refine flatMap_congr_fun _ _ _ fun s => ?_
    simp only [Function.comp, List.map_map]
    apply List.map_congr_left
    intro dd _
    simp only [Function.comp_apply, List.map_set]
    simp [map_ofNat]
  · rw [show ([1, 1, 1, 1] : List δ) = ([1, 1, 1, 1] : List γ).map f by simp,
      allSignVariations_map]
  · rw [show ([0, f phiInv, 1, f phi] : List δ) = ([0, phiInv, 1, phi] : List γ).map f by simp]
    exact asv_ep_map f _

theorem dist4Sq_map (f : γ →+* δ) (v w : List γ) :
    dist4Sq (v.map f) (w.map f) = f (dist4Sq v w) := by
  simp only [dist4Sq, getD_map_zero, map_add, map_pow, map_sub]

theorem sqNorm4_map (f : γ →+* δ) (v : List γ) :
    sqNorm4 (v.map f) = f (sqNorm4 v) := by
  simp only [sqNorm4, getD_map_zero, map_add, map_pow]

theorem dist4Sq_nonneg (v w : List γ) : 0 ≤ dist4Sq v w := by
  unfold dist4Sq
  positivity

theorem dist4Sq_self (v : List γ) : dist4Sq v v = 0 := by
  simp [dist4Sq]

theorem dist4Sq_eq_zero_iff (v w : List γ) :
    dist4Sq v w = 0 ↔ (v.getD 0 0 = w.getD 0 0 ∧ v.getD 1 0 = w.getD 1 0 ∧
      v.getD 2 0 = w.getD 2 0 ∧ v.getD 3 0 = w.getD 3 0) := by
  constructor
  · intro h
    unfold dist4Sq at h
    have s0 := sq_nonneg (v.getD 0 0 - w.getD 0 0)
    have s1 := sq_nonneg (v.getD 1 0 - w.getD 1 0)
    have s2 := sq_nonneg (v.getD 2 0 - w.getD 2 0)
    have s3 := sq_nonneg (v.getD 3 0 - w.getD 3 0)
    refine ⟨?_, ?_, ?_, ?_⟩ <;>
      [have e := le_antisymm (by nlinarith) s0;
       have e := le_antisymm (by nlinarith) s1;
       have e := le_antisymm (by nlinarith) s2;
       have e := le_antisymm (by nlinarith) s3] <;>
      [skip; skip; skip; skip] <;>
      exact sub_eq_zero.mp (pow_eq_zero_iff (two_ne_zero) |>.mp e)
  · intro ⟨h0, h1, h2, h3⟩
    unfold dist4Sq
    rw [h0, h1, h2, h3]
    ring

theorem list4_ext {β₁ : Type} (l : List β₁) (h : l.length = 4) :
    ∃ a b c d, l = [a, b, c, d] := by
  rcases l with _ | ⟨a, _ | ⟨b, _ | ⟨c, _ | ⟨d, _ | ⟨e, t⟩⟩⟩⟩⟩ <;> simp_all

theorem any_map_eq {β₁ β₂ : Type} (l : List β₁) (g : β₁ → β₂) (p : β₂ → Bool) :
    (l.map g).any p = l.any (fun x => p (g x)) := by
  induction l with
  | nil => rfl
  | cons x t ih => simp [List.any_cons, ih]

end MapCommute

theorem dedupEq_map {γ δ : Type} [DecidableEq γ] [DecidableEq δ]
    (f : γ → δ) (hf : Function.Injective f) (vs : List (List γ)) :
    dedupEq (vs.map (List.map f)) = (dedupEq vs).map (List.map f) := by
  have hg : Function.Injective (List.map f) := List.map_injective_iff.mpr hf
  unfold dedupEq
  have main : ∀ (l res : List (List γ)),
      (l.map (List.map f)).foldl
          (fun res v => if res.any fun r => decide (r = v) then res else res ++ [v])
          (res.map (List.map f))
        = (l.foldl
            (fun res v => if res.any fun r => decide (r = v) then res else res ++ [v])
            res).map (List.map f) := by
    intro l
    induction l with
    | nil => intro res; rfl
    | cons v t ih =>
        intro res
        rw [List.map_cons, List.foldl_cons, List.foldl_cons]
        have hcond : ((res.map (List.map f)).any fun r => decide (r = List.map f v))
            = (res.any fun r => decide (r = v)) := by
          rw [any_map_eq]
          apply any_congrL
          intro x _
          simp only [decide_eq_decide]
          exact ⟨fun h => hg h, fun h => by rw [h]⟩
        rw [hcond]
        by_cases hc : (res.any fun r => decide (r = v)) = true
        · rw [if_pos hc, if_pos hc]; exact ih res
        · rw [if_neg hc, if_neg hc]
          have : res.map (List.map f) ++ [List.map f v] = (res ++ [v]).map (List.map f) := by
            simp
          rw [this]
          exact ih (res ++ [v])
  exact main vs []


/-! pair-distance streaming -/

def pairDists (vs : List (List α)) : List α :=
  match vs with
  | [] => []
  | v :: rest => (rest.map fun w => dist4Sq v w) ++ pairDists rest

theorem map_range_getD {β₁ β₂ : Type} (l : List β₁) (d : β₁) (g : β₁ → β₂) :
    (List.range l.length).map (fun i => g (l.getD i d)) = l.map g := by
  induction l with
  | nil => rfl
  | cons x t ih =>
      rw [List.length_cons, List.range_succ_eq_map, List.map_cons, List.map_map, List.map_cons]
      refine congrArg₂ List.cons rfl ?_
      have ht : ∀ i ∈ List.range t.length,
          ((fun i => g ((x :: t).getD i d)) ∘ Nat.succ) i = (fun i => g (t.getD i d)) i := by
        intro i _
        rfl
      rw [List.map_congr_left ht]
      exact ih

theorem map_range'_getD {β₁ β₂ : Type} (l : List β₁) (s : ℕ) (d : β₁) (g : β₁ → β₂) :
    (List.range' s (l.length - s)).map (fun j => g (l.getD j d)) = (l.drop s).map g := by
  rw [List.range'_eq_map_range, List.map_map, ← List.length_drop,
    ← map_range_getD (l.drop s) d g]
  apply List.map_congr_left
  intro t ht
  simp only [Function.comp_apply]
  congr 1
  rw [List.getD_eq_getElem?_getD, List.getD_eq_getElem?_getD, List.getElem?_drop]

theorem pairDists_flat (vs : List (List α)) :
    pairDists vs = (List.range vs.length).flatMap
      (fun i => (vs.drop (i + 1)).map fun w => dist4Sq (vs.getD i []) w) := by
  induction vs with
  | nil => rfl
  | cons v rest ih =>
      show (rest.map fun w => dist4Sq v w) ++ pairDists rest = _
      rw [List.length_cons, List.range_succ_eq_map, List.flatMap_cons, List.flatMap_map]
      refine congrArg₂ _ rfl ?_
      rw [ih]
      refine flatMap_congr_fun _ _ _ fun i => ?_
      simp only [Function.comp_apply, List.drop_succ_cons, List.getD_cons_succ]

theorem pairDists_spec (vs : List (List α)) :
    (pairsLT vs.length).map
        (fun ij => dist4Sq (vs.getD ij.1 []) (vs.getD ij.2 [])) = pairDists vs := by
  rw [pairDists_flat]
  unfold pairsLT
  rw [List.map_flatMap]
  refine flatMap_congr_fun _ _ _ fun i => ?_
  rw [List.map_map]
  show (List.range' (i + 1) (vs.length - (i + 1))).map
      (fun j => (fun w => dist4Sq (vs.getD i []) w) (vs.getD j [])) = _
  exact map_range'_getD vs (i + 1) [] _

def edgeMinStep (tol : α) (m : Option α) (d : α) : Option α :=
  if tol < d then
    match m with
    | none => some d
    | some mv => if d < mv then some d else m
  else m

theorem findEdgesMin_eq_pairDists (vs : List (List α)) (tol : α) :
    findEdgesMin vs tol = (pairDists vs).foldl (edgeMinStep tol) none := by
  unfold findEdgesMin
  rw [← pairDists_spec, List.foldl_map]
  rfl

theorem findEdges_length_eq (vs : List (List α)) (tol : α) :
    (findEdges vs tol).length =
      match findEdgesMin vs tol with
      | none => 0
      | some m => (pairDists vs).countP (fun d => decide (|d - m| < tol * m)) := by
  unfold findEdges
  cases h : findEdgesMin vs tol with
  | none => rfl
  | some m =>
      show _ = (pairDists vs).countP (fun d => decide (|d - m| < tol * m))
      rw [← List.countP_eq_length_filter, ← pairDists_spec, List.countP_map]
      rfl

def countRows (p : α → Bool) : List (List α) → ℕ
  | [] => 0
  | v :: rest => (rest.countP fun w => p (dist4Sq v w)) + countRows p rest

theorem countRows_eq (p : α → Bool) (vs : List (List α)) :
    countRows p vs = (pairDists vs).countP p := by
  induction vs with
  | nil => rfl
  | cons v rest ih =>
      show (rest.countP fun w => p (dist4Sq v w)) + countRows p rest = _
      rw [show pairDists (v :: rest) = (rest.map fun w => dist4Sq v w) ++ pairDists rest
        from rfl, List.countP_append, List.countP_map, ih]
      rfl

/-! transport of the edge scan to a mirror ring -/

def edgeMinStepM (kp nf : α) (m : Option α) (d : α) : Option α :=
  if kp < nf * d then
    match m with
    | none => some d
    | some mv => if d < mv then some d else m
  else m

def minRowsM (kp nf : α) : List (List α) → Option α → Option α
  | [], acc => acc
  | v :: rest, acc =>
      match (rest.map fun w => dist4Sq v w).foldl (edgeMinStepM kp nf) acc with
      | none => minRowsM kp nf rest none
      | some mv => minRowsM kp nf rest (some mv)

theorem minRowsM_eq (kp nf : α) (vs : List (List α)) :
    ∀ acc, minRowsM kp nf vs acc = (pairDists vs).foldl (edgeMinStepM kp nf) acc := by
  induction vs with
  | nil => intro acc; rfl
  | cons v rest ih =>
      intro acc
      show (match (rest.map fun w => dist4Sq v w).foldl (edgeMinStepM kp nf) acc with
        | none => minRowsM kp nf rest none
        | some mv => minRowsM kp nf rest (some mv)) = _
      rw [show pairDists (v :: rest) = (rest.map fun w => dist4Sq v w) ++ pairDists rest
        from rfl, List.foldl_append]
      cases h : (rest.map fun w => dist4Sq v w).foldl (edgeMinStepM kp nf) acc with
      | none => exact ih none
      | some mv => exact ih (some mv)

def findEdgesCountM (kp nf nf2 : α) (vsM : List (List α)) : ℕ :=
  match minRowsM kp nf vsM none with
  | none => 0
  | some m => countRows (fun d => decide (nf2 * |d - m| < m)) vsM

theorem countP_congrL {β : Type} (l : List β) (p q : β → Bool)
    (h : ∀ x ∈ l, p x = q x) : l.countP p = l.countP q := by
  induction l with
  | nil => rfl
  | cons x t ih =>
      rw [List.countP_cons, List.countP_cons, h x (List.mem_cons_self x t),
        ih (fun y hy => h y (List.mem_cons_of_mem x hy))]

section Transport

variable {γ δ : Type} [LinearOrderedCommRing γ] [LinearOrderedCommRing δ]

theorem pairDists_map_scale (g : γ → δ) (φ : γ → δ)
    (hdist : ∀ v w : List γ, dist4Sq (v.map g) (w.map g) = φ (dist4Sq v w))
    (vs : List (List γ)) :
    pairDists (vs.map (List.map g)) = (pairDists vs).map φ := by
  induction vs with
  | nil => rfl
  | cons v rest ih =>
      show ((rest.map (List.map g)).map fun w => dist4Sq (v.map g) w)
          ++ pairDists (rest.map (List.map g)) = _
      rw [show pairDists (v :: rest) = (rest.map fun w => dist4Sq v w) ++ pairDists rest
        from rfl, List.map_append, ih, List.map_map, List.map_map]
      refine congrArg₂ _ ?_ rfl
      apply List.map_congr_left
      intro w _
      exact hdist v w

theorem foldl_edgeMin_map (φ : γ → δ) (tol : δ) (kp nf : γ)
    (hφmono : ∀ x y : γ, x < y ↔ φ x < φ y)
    (hcond : ∀ d : γ, (tol < φ d ↔ kp < nf * d)) (l : List γ) :
    ∀ acc : Option γ,
      (l.map φ).foldl (edgeMinStep tol) (acc.map φ) = (l.foldl (edgeMinStepM kp nf) acc).map φ := by
  induction l with
  | nil => intro acc; rfl
  | cons d t ih =>
      intro acc
      rw [List.map_cons, List.foldl_cons, List.foldl_cons]
      have hstep : edgeMinStep tol (acc.map φ) (φ d) = (edgeMinStepM kp nf acc d).map φ := by
        unfold edgeMinStep edgeMinStepM
        by_cases h1 : kp < nf * d
        · rw [if_pos ((hcond d).mpr h1), if_pos h1]
          cases acc with
          | none => rfl
          | some mv =>
              show (if φ d < φ mv then some (φ d) else some (φ mv))
                  = (if d < mv then some d else some mv).map φ
              by_cases h2 : d < mv
              · rw [if_pos ((hφmono d mv).mp h2), if_pos h2]
                rfl
              · rw [if_neg (fun hc => h2 ((hφmono d mv).mpr hc)), if_neg h2]
                rfl
        · rw [if_neg (fun hc => h1 ((hcond d).mp hc)), if_neg h1]
      rw [hstep]
      exact ih _

theorem findEdges_length_via_mirror (g : γ → δ) (φ : γ → δ) (tol : δ) (kp nf nf2 : γ)
    (vsM : List (List γ))
    (hdist : ∀ v w : List γ, dist4Sq (v.map g) (w.map g) = φ (dist4Sq v w))
    (hφmono : ∀ x y : γ, x < y ↔ φ x < φ y)
    (hcond : ∀ d : γ, (tol < φ d ↔ kp < nf * d))
    (hpred : ∀ d m : γ, (|φ d - φ m| < tol * φ m ↔ nf2 * |d - m| < m)) :
    (findEdges (vsM.map (List.map g)) tol).length = findEdgesCountM kp nf nf2 vsM := by
  rw [findEdges_length_eq, findEdgesMin_eq_pairDists,
    pairDists_map_scale g φ hdist vsM]
  have hfold := foldl_edgeMin_map φ tol kp nf hφmono hcond (pairDists vsM) none
  rw [show (none : Option γ).map φ = none from rfl] at hfold
  rw [hfold]
  unfold findEdgesCountM
  rw [minRowsM_eq]
  cases hmin : (pairDists vsM).foldl (edgeMinStepM kp nf) none with
  | none => rfl
  | some m =>
      show ((pairDists vsM).map φ).countP (fun d => decide (|d - φ m| < tol * φ m))
          = countRows (fun d => decide (nf2 * |d - m| < m)) vsM
      rw [countRows_eq, List.countP_map]
      apply countP_congrL
      intro d _
      simp only [Function.comp_apply, decide_eq_decide]
      exact hpred d m

end Transport

/-! ## Evaluation homomorphisms, order transfer, and the separation bound -/

/-- Evaluation at the root, bundled as a ring homomorphism. -/
noncomputable def Zq.toRHom {m n : ℤ} (ω : ℝ) (hω : ω ^ 2 = m + n * ω) : Zq m n →+* ℝ where
  toFun := Zq.toR ω
  map_one' := Zq.toR_one ω
  map_mul' := fun x y => Zq.toR_mul hω x y
  map_zero' := Zq.toR_zero ω
  map_add' := fun x y => Zq.toR_add ω x y

theorem Zq.toRHom_apply {m n : ℤ} (ω : ℝ) (hω : ω ^ 2 = m + n * ω) (x : Zq m n) :
    Zq.toRHom ω hω x = Zq.toR ω x := rfl

/-- Strict order transfers along evaluation. -/
theorem Zq.toR_lt {m n : ℤ} {ω : ℝ} (hω : ω ^ 2 = m + n * ω)
    (h2ω : (n : ℝ) ≤ 2 * ω) {x y : Zq m n} :
    x < y ↔ x.toR ω < y.toR ω :=
  Zq.toR_lt_aux hω h2ω

/-- The golden-ratio evaluation `ℤ[φ] →+* ℝ`. -/
noncomputable def phiHom : Zq 1 1 →+* ℝ := Zq.toRHom phiR phiR_sq

/-- The `√2` evaluation `ℤ[√2] →+* ℝ`. -/
noncomputable def s2Hom : Zq 2 0 →+* ℝ := Zq.toRHom (Real.sqrt 2) sqrt2_sq

theorem phi_toR_le {x y : Zq 1 1} : x ≤ y ↔ x.toR phiR ≤ y.toR phiR :=
  Zq.toR_le phiR_sq phiR_nonneg_bound

theorem phi_toR_lt {x y : Zq 1 1} : x < y ↔ x.toR phiR < y.toR phiR :=
  Zq.toR_lt phiR_sq phiR_nonneg_bound

theorem s2_toR_le {x y : Zq 2 0} : x ≤ y ↔ x.toR (Real.sqrt 2) ≤ y.toR (Real.sqrt 2) :=
  Zq.toR_le sqrt2_sq sqrt2_nonneg_bound

theorem s2_toR_lt {x y : Zq 2 0} : x < y ↔ x.toR (Real.sqrt 2) < y.toR (Real.sqrt 2) :=
  Zq.toR_lt sqrt2_sq sqrt2_nonneg_bound

theorem phi_toR_abs (x : Zq 1 1) : Zq.toR phiR |x| = |Zq.toR phiR x| := by
  rcases le_total 0 x with h | h
  · have h' : 0 ≤ x.toR phiR := by
      have := phi_toR_le.mp h
      rwa [Zq.toR_zero] at this
    rw [abs_of_nonneg h, abs_of_nonneg h']
  · have h' : x.toR phiR ≤ 0 := by
      have := phi_toR_le.mp h
      rwa [Zq.toR_zero] at this
    rw [abs_of_nonpos h, abs_of_nonpos h', Zq.toR_neg]

theorem s2_toR_abs (x : Zq 2 0) : Zq.toR (Real.sqrt 2) |x| = |Zq.toR (Real.sqrt 2) x| := by
  rcases le_total 0 x with h | h
  · have h' : 0 ≤ x.toR (Real.sqrt 2) := by
      have := s2_toR_le.mp h
      rwa [Zq.toR_zero] at this
    rw [abs_of_nonneg h, abs_of_nonneg h']
  · have h' : x.toR (Real.sqrt 2) ≤ 0 := by
      have := s2_toR_le.mp h
      rwa [Zq.toR_zero] at this
    rw [abs_of_nonpos h, abs_of_nonpos h', Zq.toR_neg]

/-! identification of the source's real constants with `ℤ[φ]` images -/

theorem PHI_eq_phiR : PHI = phiR := rfl

theorem phiR_pos : 0 < phiR := by
  have h5 : (0:ℝ) ≤ Real.sqrt 5 := Real.sqrt_nonneg 5
  unfold phiR
  linarith

theorem phiHom_phiM : phiHom phiM = PHI := by
  rw [PHI_eq_phiR, phiHom, Zq.toRHom_apply]
  simp [Zq.toR, phiM]

theorem phiHom_s5M : phiHom s5M = SQRT5 := by
  rw [phiHom, Zq.toRHom_apply]
  simp only [Zq.toR, s5M, SQRT5, phiR]
  push_cast
  ring

theorem phiHom_phiInvM : phiHom phiInvM = PHI_INV := by
  rw [phiHom, Zq.toRHom_apply]
  simp only [Zq.toR, phiInvM, PHI_INV, PHI_eq_phiR]
  rw [eq_div_iff (ne_of_gt phiR_pos)]
  push_cast
  linear_combination phiR_sq

theorem phiHom_phiSqM : phiHom phiSqM = PHI_SQ := by
  rw [phiHom, Zq.toRHom_apply]
  simp only [Zq.toR, phiSqM, PHI_SQ, PHI_eq_phiR]
  push_cast
  linear_combination (-1 : ℝ) * phiR_sq

theorem phiHom_phiInvSqM : phiHom phiInvSqM = PHI_INV_SQ := by
  rw [phiHom, Zq.toRHom_apply]
  simp only [Zq.toR, phiInvSqM, PHI_INV_SQ, PHI_INV, PHI_eq_phiR]
  rw [div_mul_div_comm, eq_div_iff (ne_of_gt (mul_pos phiR_pos phiR_pos))]
  push_cast
  linear_combination (1 - phiR) * phiR_sq

/-! the separation bound: distinct `ℤ[φ]` combinations with small coefficients
are at least `1/1760` apart, far above the `1e-8` deduplication tolerance -/

theorem getD_prop {β : Type} (p : β → Prop) (l : List β) (d : β) (i : ℕ)
    (hl : ∀ x ∈ l, p x) (hd : p d) : p (l.getD i d) := by
  induction l generalizing i with
  | nil => simpa [List.getD] using hd
  | cons x t ih =>
      cases i with
      | zero => exact hl x (List.mem_cons_self x t)
      | succ j =>
          rw [List.getD_cons_succ]
          exact ih j (fun y hy => hl y (List.mem_cons_of_mem x hy))

theorem int_pair_bound (p q : ℤ) (hp : |p| ≤ 4) (hq : |q| ≤ 4) :
    (0 ≤ p * p + 1 * (q * q) ∧ p * p + 1 * (q * q) ≤ 32) ∧
      (-48 ≤ p * q + q * p + 1 * (q * q) ∧ p * q + q * p + 1 * (q * q) ≤ 48) := by
  obtain ⟨hpl, hpr⟩ := abs_le.mp hp
  obtain ⟨hql, hqr⟩ := abs_le.mp hq
  have m1 : (0:ℤ) ≤ (4 - p) * (4 + p) := mul_nonneg (by linarith) (by linarith)
  have m2 : (0:ℤ) ≤ (4 - q) * (4 + q) := mul_nonneg (by linarith) (by linarith)
  have m3 : (0:ℤ) ≤ (4 - p) * (4 - q) := mul_nonneg (by linarith) (by linarith)
  have m4 : (0:ℤ) ≤ (4 + p) * (4 + q) := mul_nonneg (by linarith) (by linarith)
  have m5 : (0:ℤ) ≤ (4 - p) * (4 + q) := mul_nonneg (by linarith) (by linarith)
  have m6 : (0:ℤ) ≤ (4 + p) * (4 - q) := mul_nonneg (by linarith) (by linarith)
  refine ⟨⟨by nlinarith [mul_self_nonneg p, mul_self_nonneg q], by nlinarith⟩, ⟨by nlinarith, by nlinarith⟩⟩

theorem dist_coeff_bound (v w : List (Zq 1 1))
    (hv : ∀ x ∈ v, |x.a| ≤ 2 ∧ |x.b| ≤ 2) (hw : ∀ x ∈ w, |x.a| ≤ 2 ∧ |x.b| ≤ 2) :
    |(dist4Sq v w).a| ≤ 128 ∧ |(dist4Sq v w).b| ≤ 192 := by
  have h0 : |(0 : Zq 1 1).a| ≤ 2 ∧ |(0 : Zq 1 1).b| ≤ 2 := by
    rw [Zq.zero_def]
    norm_num
  have hd : ∀ i : ℕ, |(v.getD i 0).a - (w.getD i 0).a| ≤ 4 ∧
      |(v.getD i 0).b - (w.getD i 0).b| ≤ 4 := by
    intro i
    have h1 := getD_prop _ v 0 i hv h0
    have h2 := getD_prop _ w 0 i hw h0
    obtain ⟨x1, x2⟩ := abs_le.mp h1.1
    obtain ⟨x3, x4⟩ := abs_le.mp h1.2
    obtain ⟨x5, x6⟩ := abs_le.mp h2.1
    obtain ⟨x7, x8⟩ := abs_le.mp h2.2
    exact ⟨abs_le.mpr ⟨by linarith, by linarith⟩, abs_le.mpr ⟨by linarith, by linarith⟩⟩
  have t0 := int_pair_bound _ _ (hd 0).1 (hd 0).2
  have t1 := int_pair_bound _ _ (hd 1).1 (hd 1).2
  have t2 := int_pair_bound _ _ (hd 2).1 (hd 2).2
  have t3 := int_pair_bound _ _ (hd 3).1 (hd 3).2
  obtain ⟨⟨a0l, a0r⟩, ⟨b0l, b0r⟩⟩ := t0
  obtain ⟨⟨a1l, a1r⟩, ⟨b1l, b1r⟩⟩ := t1
  obtain ⟨⟨a2l, a2r⟩, ⟨b2l, b2r⟩⟩ := t2
  obtain ⟨⟨a3l, a3r⟩, ⟨b3l, b3r⟩⟩ := t3
  simp only [dist4Sq, pow_two, Zq.sub_def, Zq.mul_def, Zq.add_def]
  constructor <;> rw [abs_le] <;> constructor <;> linarith

theorem zq_gap (d : Zq 1 1) (ha : |d.a| ≤ 128) (hb : |d.b| ≤ 192)
    (hnn : 0 ≤ Zq.toR phiR d) (hsmall : Zq.toR phiR d < 1e-8) : d = 0 := by
  by_contra hne
  have h5 : Real.sqrt 5 ^ 2 = 5 := Real.sq_sqrt (by norm_num)
  have h5nn : (0:ℝ) ≤ Real.sqrt 5 := Real.sqrt_nonneg 5
  have h5b : Real.sqrt 5 ≤ 9 / 4 := by nlinarith
  have hx : Zq.toR phiR d
      = (((2 * d.a + d.b : ℤ) : ℝ) + ((d.b : ℤ) : ℝ) * Real.sqrt 5) / 2 := by
    simp only [Zq.toR, phiR]
    push_cast
    ring
  have hPQ : ¬ (2 * d.a + d.b = 0 ∧ d.b = 0) := by
    rintro ⟨hp, hq⟩
    apply hne
    rw [Zq.ext_iff2, Zq.zero_def]
    constructor
    · simp only []
      omega
    · simpa using hq
  have hPQnz : (2 * d.a + d.b) ^ 2 - 5 * d.b ^ 2 ≠ 0 := by
    intro hc
    rcases eq_or_ne d.b 0 with hq | hq
    · rw [hq] at hc
      simp at hc
      exact hPQ ⟨by omega, hq⟩
    · have hQR : ((d.b : ℤ) : ℝ) ≠ 0 := Int.cast_ne_zero.mpr hq
      have hceq : ((2 * d.a + d.b : ℤ) : ℝ) ^ 2 = 5 * ((d.b : ℤ) : ℝ) ^ 2 := by
        have h' : (2 * d.a + d.b) ^ 2 = 5 * d.b ^ 2 := by linarith
        exact_mod_cast h'
      have hratio : (((2 * d.a + d.b : ℤ) : ℝ) / ((d.b : ℤ) : ℝ)) ^ 2 = 5 := by
        rw [div_pow, hceq]
        field_simp
      have hsq5 : Real.sqrt 5 = |((2 * d.a + d.b : ℤ) : ℝ) / ((d.b : ℤ) : ℝ)| := by
        rw [show (5:ℝ) = (((2 * d.a + d.b : ℤ) : ℝ) / ((d.b : ℤ) : ℝ)) ^ 2 from hratio.symm,
          Real.sqrt_sq_eq_abs]
      have hirr : Irrational (Real.sqrt 5) := (by norm_num : Nat.Prime 5).irrational_sqrt
      apply hirr
      refine ⟨|((2 * d.a + d.b : ℚ)) / ((d.b : ℚ))|, ?_⟩
      rw [hsq5]
      push_cast
      rfl
  have h1le : (1:ℝ) ≤ |(((2 * d.a + d.b) ^ 2 - 5 * d.b ^ 2 : ℤ) : ℝ)| := by
    have h' : (1:ℤ) ≤ |(2 * d.a + d.b) ^ 2 - 5 * d.b ^ 2| := Int.one_le_abs hPQnz
    exact_mod_cast h'
  have hfact : (((2 * d.a + d.b) ^ 2 - 5 * d.b ^ 2 : ℤ) : ℝ)
      = (((2 * d.a + d.b : ℤ) : ℝ) + ((d.b : ℤ) : ℝ) * Real.sqrt 5)
        * (((2 * d.a + d.b : ℤ) : ℝ) - ((d.b : ℤ) : ℝ) * Real.sqrt 5) := by
    push_cast
    linear_combination ((d.b : ℝ)) ^ 2 * h5
  have hPb : |((2 * d.a + d.b : ℤ) : ℝ)| ≤ 448 := by
    obtain ⟨hal, har⟩ := abs_le.mp ha
    obtain ⟨hbl, hbr⟩ := abs_le.mp hb
    have h' : |(2 * d.a + d.b : ℤ)| ≤ 448 := abs_le.mpr ⟨by linarith, by linarith⟩
    exact_mod_cast h'
  have hQb : |((d.b : ℤ) : ℝ)| ≤ 192 := by exact_mod_cast hb
  have hconj : |((2 * d.a + d.b : ℤ) : ℝ) - ((d.b : ℤ) : ℝ) * Real.sqrt 5| ≤ 880 := by
    have habs2 : |((d.b : ℤ) : ℝ) * Real.sqrt 5| ≤ 192 * (9/4) := by
      rw [abs_mul, abs_of_nonneg h5nn]
      exact mul_le_mul hQb h5b h5nn (by norm_num)
    calc |((2 * d.a + d.b : ℤ) : ℝ) - ((d.b : ℤ) : ℝ) * Real.sqrt 5|
        ≤ |((2 * d.a + d.b : ℤ) : ℝ)| + |((d.b : ℤ) : ℝ) * Real.sqrt 5| := abs_sub _ _
      _ ≤ 448 + 192 * (9/4) := add_le_add hPb habs2
      _ ≤ 880 := by norm_num
  have hsum : |((2 * d.a + d.b : ℤ) : ℝ) + ((d.b : ℤ) : ℝ) * Real.sqrt 5|
      = 2 * Zq.toR phiR d := by
    rw [hx]
    rw [abs_of_nonneg (by rw [hx] at hnn; linarith)]
    ring
  have hchain : (1:ℝ) ≤ 2 * Zq.toR phiR d * 880 := by
    calc (1:ℝ) ≤ |(((2 * d.a + d.b) ^ 2 - 5 * d.b ^ 2 : ℤ) : ℝ)| := h1le
      _ = |((2 * d.a + d.b : ℤ) : ℝ) + ((d.b : ℤ) : ℝ) * Real.sqrt 5|
          * |((2 * d.a + d.b : ℤ) : ℝ) - ((d.b : ℤ) : ℝ) * Real.sqrt 5| := by
            rw [hfact, abs_mul]
      _ ≤ (2 * Zq.toR phiR d) * 880 := by
            rw [hsum]
            exact mul_le_mul_of_nonneg_left hconj (by linarith)
  have he8 : (1e-8 : ℝ) = 1 / 100000000 := by norm_num
  rw [he8] at hsmall
  linarith

/-! ## Coefficient bounds of the raw families (kernel-checked) and the
resulting deduplication identities -/

theorem raw120M_bounds : raw120M.all
    (fun v => decide (v.length = 4) && v.all fun x => decide (|x.a| ≤ 2 ∧ |x.b| ≤ 2)) = true := by
  decide!

theorem raw600M_bounds : raw600M.all
    (fun v => decide (v.length = 4) && v.all fun x => decide (|x.a| ≤ 2 ∧ |x.b| ≤ 2)) = true := by
  decide!

theorem bounds_unpack (L : List (List (Zq 1 1)))
    (h : L.all (fun v => decide (v.length = 4)
      && v.all fun x => decide (|x.a| ≤ 2 ∧ |x.b| ≤ 2)) = true) :
    ∀ v ∈ L, v.length = 4 ∧ ∀ x ∈ v, |x.a| ≤ 2 ∧ |x.b| ≤ 2 := by
  intro v hv
  have h' := List.all_eq_true.mp h v hv
  rw [Bool.and_eq_true] at h'
  obtain ⟨h1, h2⟩ := h'
  exact ⟨of_decide_eq_true h1, fun x hx => of_decide_eq_true (List.all_eq_true.mp h2 x hx)⟩

theorem phiHom_inj : Function.Injective phiHom := fun _ _ hxy =>
  Zq.toR_inj phiR_irrational hxy

theorem raw_gap (L : List (List (Zq 1 1)))
    (hB : ∀ v ∈ L, v.length = 4 ∧ ∀ x ∈ v, |x.a| ≤ 2 ∧ |x.b| ≤ 2) :
    ∀ v ∈ L.map (List.map phiHom), ∀ w ∈ L.map (List.map phiHom),
      (dist4Sq v w < 1e-8 ↔ v = w) := by
  intro v hv w hw
  obtain ⟨vm, hvm, rfl⟩ := List.mem_map.mp hv
  obtain ⟨wm, hwm, rfl⟩ := List.mem_map.mp hw
  rw [dist4Sq_map phiHom]
  constructor
  · intro hsmall
    have hnn : 0 ≤ phiHom (dist4Sq vm wm) := by
      rw [← dist4Sq_map phiHom]
      exact dist4Sq_nonneg _ _
    have hbd := dist_coeff_bound vm wm (hB vm hvm).2 (hB wm hwm).2
    have hz := zq_gap (dist4Sq vm wm) hbd.1 hbd.2 hnn hsmall
    have hco := (dist4Sq_eq_zero_iff vm wm).mp hz
    obtain ⟨a, b, c, d4, rfl⟩ := list4_ext vm (hB vm hvm).1
    obtain ⟨a', b', c', d4', rfl⟩ := list4_ext wm (hB wm hwm).1
    obtain ⟨e0, e1, e2, e3⟩ := hco
    simp only [List.getD_cons_zero, List.getD_cons_succ] at e0 e1 e2 e3
    rw [e0, e1, e2, e3]
  · intro heq
    have hvw : vm = wm := List.map_injective_iff.mpr phiHom_inj heq
    rw [hvw, dist4Sq_self, map_zero]
    norm_num

/-- The raw 600-cell family at ℝ is the image of the `ℤ[φ]` mirror. -/
theorem raw600R_eq : raw600L PHI_INV PHI = raw600M.map (List.map phiHom) := by
  rw [← phiHom_phiInvM, ← phiHom_phiM]
  exact raw600L_map phiHom phiInvM phiM

/-- The unfiltered raw 120-cell family at ℝ is the image of the mirror. -/
theorem raw120NFR_eq : raw120NF SQRT5 PHI PHI_INV PHI_SQ PHI_INV_SQ
    = raw120M.map (List.map phiHom) := by
  rw [← phiHom_s5M, ← phiHom_phiM, ← phiHom_phiInvM, ← phiHom_phiSqM, ← phiHom_phiInvSqM]
  exact raw120NF_map phiHom s5M phiM phiInvM phiSqM phiInvSqM

theorem permIdxAll_has_zero : permIdxAll.all
    (fun arr => decide (arr.getD 0 0 = 0 ∨ arr.getD 1 0 = 0
      ∨ arr.getD 2 0 = 0 ∨ arr.getD 3 0 = 0)) = true := by
  decide!

theorem SQRT5_nonneg : 0 ≤ SQRT5 := Real.sqrt_nonneg 5

theorem sqrt5_hit (x : ℝ) (hx : x = SQRT5 ∨ x = -SQRT5) : |(|x|) - SQRT5| < 0.01 := by
  rcases hx with h | h
  · rw [h, abs_of_nonneg SQRT5_nonneg, sub_self, abs_zero]
    norm_num
  · rw [h, abs_neg, abs_of_nonneg SQRT5_nonneg, sub_self, abs_zero]
    norm_num

theorem asv_coord0 (v : List ℝ) (sv : List ℝ) (hsv : sv ∈ allSignVariations v) :
    sv.getD 0 0 = v.getD 0 0 ∨ sv.getD 0 0 = -(v.getD 0 0) := by
  obtain ⟨mask, hmask, rfl⟩ := List.mem_map.mp hsv
  simp only [List.getD_cons_zero]
  split
  · exact Or.inr rfl
  · exact Or.inl rfl

theorem ap_coords (sv p : List ℝ) (hp : p ∈ allPermutations sv) :
    ∃ arr ∈ permIdxAll, p.getD 0 0 = sv.getD (arr.getD 0 0) 0
      ∧ p.getD 1 0 = sv.getD (arr.getD 1 0) 0
      ∧ p.getD 2 0 = sv.getD (arr.getD 2 0) 0
      ∧ p.getD 3 0 = sv.getD (arr.getD 3 0) 0 := by
  obtain ⟨arr, harr, rfl⟩ := List.mem_map.mp hp
  exact ⟨arr, harr, rfl, rfl, rfl, rfl⟩

/-- Every permutation of a sign variation of `[√5, 1, 1, 1]` passes the group-2
filter: some coordinate is `±√5`. -/
theorem g2_filter_keep : ∀ sv ∈ allSignVariations ([SQRT5, 1, 1, 1] : List ℝ),
    ∀ p ∈ allPermutations sv,
    (decide (|(|p.getD 0 0|) - SQRT5| < 0.01) || decide (|(|p.getD 1 0|) - SQRT5| < 0.01) ||
     decide (|(|p.getD 2 0|) - SQRT5| < 0.01) || decide (|(|p.getD 3 0|) - SQRT5| < 0.01))
      = true := by
  intro sv hsv p hp
  have hpm : sv.getD 0 0 = SQRT5 ∨ sv.getD 0 0 = -SQRT5 := by
    have h' := asv_coord0 [SQRT5, 1, 1, 1] sv hsv
    simpa only [List.getD_cons_zero] using h'
  obtain ⟨arr, harr, hc0, hc1, hc2, hc3⟩ := ap_coords sv p hp
  have hzero := of_decide_eq_true (List.all_eq_true.mp permIdxAll_has_zero arr harr)
  rcases hzero with h0 | h0 | h0 | h0
  · have hlt : |(|p.getD 0 0|) - SQRT5| < 0.01 := by
      rw [hc0, h0]
      exact sqrt5_hit _ hpm
    simp only [Bool.or_eq_true, decide_eq_true_eq]
    exact Or.inl (Or.inl (Or.inl hlt))
  · have hlt : |(|p.getD 1 0|) - SQRT5| < 0.01 := by
      rw [hc1, h0]
      exact sqrt5_hit _ hpm
    simp only [Bool.or_eq_true, decide_eq_true_eq]
    exact Or.inl (Or.inl (Or.inr hlt))
  · have hlt : |(|p.getD 2 0|) - SQRT5| < 0.01 := by
      rw [hc2, h0]
      exact sqrt5_hit _ hpm
    simp only [Bool.or_eq_true, decide_eq_true_eq]
    exact Or.inl (Or.inr hlt)
  · have hlt : |(|p.getD 3 0|) - SQRT5| < 0.01 := by
      rw [hc3, h0]
      exact sqrt5_hit _ hpm
    simp only [Bool.or_eq_true, decide_eq_true_eq]
    exact Or.inr hlt

theorem flatMap_congr_mem {β₁ β₂ : Type} (l : List β₁) (g h : β₁ → List β₂)
    (he : ∀ x ∈ l, g x = h x) : l.flatMap g = l.flatMap h := by
  induction l with
  | nil => rfl
  | cons x t ih =>
      rw [List.flatMap_cons, List.flatMap_cons, he x (List.mem_cons_self x t),
        ih (fun y hy => he y (List.mem_cons_of_mem x hy))]

/-- The group-2 filter of the 120-cell generator keeps every element, so the
filtered family equals the filterless one. -/
theorem raw120R_eq_NF : raw120L SQRT5 PHI PHI_INV PHI_SQ PHI_INV_SQ 0.01
    = raw120NF SQRT5 PHI PHI_INV PHI_SQ PHI_INV_SQ := by
  unfold raw120L raw120NF
  refine app_congr (app_congr (app_congr (app_congr (app_congr (app_congr rfl ?_) rfl) rfl)
    rfl) rfl) rfl
  refine flatMap_congr_mem _ _ _ fun sv hsv => ?_
  exact List.filter_eq_self.mpr fun p hp => g2_filter_keep sv hsv p hp

theorem dedup120_len :
    (dedup (raw120L SQRT5 PHI PHI_INV PHI_SQ PHI_INV_SQ 0.01) 1e-8).length = 600 := by
  rw [raw120R_eq_NF, raw120NFR_eq,
    dedup_eq_dedupEq _ _ (raw_gap raw120M (bounds_unpack _ raw120M_bounds)),
    dedupEq_map _ phiHom_inj, List.length_map, dedupEq_raw120M_length]

theorem dedup600_len : (dedup (raw600L PHI_INV PHI) 1e-8).length = 120 := by
  rw [raw600R_eq,
    dedup_eq_dedupEq _ _ (raw_gap raw600M (bounds_unpack _ raw600M_bounds)),
    dedupEq_map _ phiHom_inj, List.length_map, dedupEq_raw600M_length]

theorem scaleToRadius_length (vs : List (List ℝ)) (t : ℝ) :
    (scaleToRadius vs t).length = vs.length := by
  simp [scaleToRadius]

/-- C3: the catalog vertex counts after deduplication are
5, 16, 8, 24, 600 and 120 for the 5-cell, 8-cell, 16-cell, 24-cell,
120-cell and 600-cell respectively. -/
theorem C3_vertex_counts :
    makeFiveCell.vertices.length = 5 ∧ makeTesseract.vertices.length = 16
      ∧ makeSixteenCell.vertices.length = 8 ∧ makeTwentyFourCell.vertices.length = 24
      ∧ makeOneHundredTwentyCell.vertices.length = 600
      ∧ makeSixHundredCell.vertices.length = 120 := by
  refine ⟨?_, ?_, ?_, ?_, ?_, ?_⟩
  · show (scaleToRadius [[1, 1, 1, -(1 / Real.sqrt 5)], [1, -1, -1, -(1 / Real.sqrt 5)],
      [-1, 1, -1, -(1 / Real.sqrt 5)], [-1, -1, 1, -(1 / Real.sqrt 5)],
      [0, 0, 0, 4 * (1 / Real.sqrt 5)]] 1.5).length = 5
    rw [scaleToRadius_length]
    rfl
  · show (tesseractVertsL : List (List ℝ)).length = 16
    rfl
  · show (scaleToRadius sixteenVertsL 1.5).length = 8
    rw [scaleToRadius_length]
    rfl
  · show (scaleToRadius raw24L 1.5).length = 24
    rw [scaleToRadius_length]
    rfl
  · show (scaleToRadius (dedup (raw120L SQRT5 PHI PHI_INV PHI_SQ PHI_INV_SQ 0.01) 1e-8)
      1.5).length = 600
    rw [scaleToRadius_length, dedup120_len]
  · show (scaleToRadius (dedup (raw600L PHI_INV PHI) 1e-8) 1.5).length = 120
    rw [scaleToRadius_length, dedup600_len]
